import Mathlib

/-!
Verification of the `vsd` adaptive-streaming download engine
(`src/playlist.rs`, `src/downloader.rs`) against its natural-language
specification.  Rust data types and functions are shallowly embedded:
`u64`/`usize` values become `Nat` with explicit checked arithmetic where
overflow or underflow matters, `Option<T>` becomes `Option`, fallible
computations (`Result`, panics) become `Option`/`Except`.
-/

set_option maxHeartbeats 1000000

namespace VSD

/-! ## Machine-integer helpers (u64) -/

/-- Largest `u64` value. -/
def U64MAX : Nat := 2 ^ 64 - 1

/-- Checked `u64` addition: `none` models the overflow panic. -/
def chkAdd (a b : Nat) : Option Nat :=
if a + b ≤ U64MAX then some (a + b) else none

/-- Checked `u64` subtraction: `none` models the underflow panic. -/
def chkSub (a b : Nat) : Option Nat :=
if b ≤ a then some (a - b) else none

/-! ## Playlist data model (`src/playlist.rs`) -/

/-- `enum MediaType` from `playlist.rs`. -/
inductive MediaType where
  | Audio
  | Subtitles
  | Undefined
  | Video
deriving DecidableEq, Repr

/-- `enum PlaylistType` from `playlist.rs`. -/
inductive PlaylistType where
  | Dash
  | Hls
deriving DecidableEq, Repr

/-- `struct ByteRange` from `playlist.rs`; `length`/`offset` are `u64`. -/
structure ByteRange where
  length : Nat
  offset : Option Nat
deriving DecidableEq, Repr

/-- `struct Map` from `playlist.rs`. -/
structure MediaMap where
  uri : String
  byte_range : Option ByteRange
deriving DecidableEq, Repr

/-- `enum KeyMethod` from `playlist.rs`. -/
inductive KeyMethod where
  | Aes128
  | Cenc
  | NoneK
  | Other (name : String)
  | SampleAes
deriving DecidableEq, Repr

/-- `struct Key` from `playlist.rs`. -/
structure MediaKey where
  default_kid : Option String
  iv : Option String
  key_format : Option String
  method : KeyMethod
  uri : String
deriving DecidableEq, Repr

/-- `struct Segment` from `playlist.rs` (the unused `duration` field is kept). -/
structure Segment where
  byte_range : Option ByteRange := none
  duration : Nat := 0
  key : Option MediaKey := none
  map : Option MediaMap := none
  uri : String := ""
deriving DecidableEq, Repr

/-- The HTTP `Range` header value `format!("bytes={}-{}", start, end)`. -/
def fmtRange (s e : Nat) : String :=
"bytes=" ++ Nat.repr s ++ "-" ++ Nat.repr e

/-- `Segment::seg_range` from `playlist.rs`.  The outer `Option` models the
`u64` arithmetic panics (`none` = under/overflow); the inner `Option` is the
Rust return value: `none` when the segment has no `byte_range`, otherwise
the `Range` header string together with the new `previous_byterange_end`. -/
def Segment.seg_range (s : Segment) (previous_byterange_end : Nat) :
    Option (Option (String × Nat)) :=
match s.byte_range with
| none => some none
| some byte_range =>
  let offset := byte_range.offset.getD 0
  if offset = 0 then
    (chkAdd previous_byterange_end byte_range.length).bind fun t =>
      (chkSub t 1).map fun e => some (fmtRange previous_byterange_end e, e)
  else
    (chkAdd byte_range.length offset).bind fun t =>
      (chkSub t 1).map fun e => some (fmtRange byte_range.length e, e)

/-- `Segment::map_range` from `playlist.rs`: like `seg_range` but driven by the
initialization map's own `byte_range`. -/
def Segment.map_range (s : Segment) (previous_byterange_end : Nat) :
    Option (Option (String × Nat)) :=
match s.map with
| none => some none
| some map =>
  match map.byte_range with
  | none => some none
  | some byte_range =>
    let offset := byte_range.offset.getD 0
    if offset = 0 then
      (chkAdd previous_byterange_end byte_range.length).bind fun t =>
        (chkSub t 1).map fun e => some (fmtRange previous_byterange_end e, e)
    else
      (chkAdd byte_range.length offset).bind fun t =>
        (chkSub t 1).map fun e => some (fmtRange byte_range.length e, e)

/-- `seg_range` avoids the `u64` underflow panic at every in-range
`previous_byterange_end` (overflow aside: the quantification is restricted to
arguments whose sums stay within `u64`). -/
def Segment.underflowFree (s : Segment) : Prop :=
∀ prev, prev ≤ U64MAX →
  (match s.byte_range with
   | none => True
   | some br =>
     (br.offset.getD 0 = 0 → prev + br.length ≤ U64MAX → (s.seg_range prev).isSome)
     ∧ (br.offset.getD 0 ≠ 0 → br.length + br.offset.getD 0 ≤ U64MAX →
         (s.seg_range prev).isSome))

instance (s : Segment) (prev : Nat) :
    Decidable (match s.byte_range with
     | none => True
     | some br =>
       (br.offset.getD 0 = 0 → prev + br.length ≤ U64MAX → (s.seg_range prev).isSome)
       ∧ (br.offset.getD 0 ≠ 0 → br.length + br.offset.getD 0 ≤ U64MAX →
           (s.seg_range prev).isSome)) := by
unfold Segment.seg_range
cases s.byte_range with
| none => exact inferInstanceAs (Decidable True)
| some br => exact inferInstanceAs (Decidable (_ ∧ _))

end VSD

namespace VSD

/-! ## C2: byte-range arithmetic of `seg_range` -/

/-- **C2.**  For a segment with a `byte_range` and any `previous_byterange_end`
`prev` (within `u64` bounds so that the checked arithmetic returns):
if `offset` is absent or zero the returned header is
`bytes=START-END` with `START = prev`, `END = prev + length - 1`; otherwise
`START = length`, `END = length + offset - 1`; in both cases the second
component is `END`.  For a segment without `byte_range` the result is `none`. -/
theorem seg_range_spec (s : Segment) (prev : Nat) :
    (s.byte_range = none → s.seg_range prev = some none)
    ∧ (∀ br, s.byte_range = some br → br.offset.getD 0 = 0 →
        1 ≤ prev + br.length → prev + br.length ≤ U64MAX →
        s.seg_range prev =
          some (some (fmtRange prev (prev + br.length - 1), prev + br.length - 1)))
    ∧ (∀ br, s.byte_range = some br → br.offset.getD 0 ≠ 0 →
        br.length + br.offset.getD 0 ≤ U64MAX →
        s.seg_range prev =
          some (some (fmtRange br.length (br.length + br.offset.getD 0 - 1),
                      br.length + br.offset.getD 0 - 1))) := by
refine ⟨fun h => by simp [Segment.seg_range, h], ?_, ?_⟩
· intro br hbr hoff h1 h2
  simp only [Segment.seg_range, hbr, hoff, if_pos rfl]
  simp [chkAdd, chkSub, h1, h2]
· intro br hbr hoff h2
  have h1 : 1 ≤ br.length + br.offset.getD 0 := by
    rcases Nat.eq_zero_or_pos (br.offset.getD 0) with h | h
    · exact absurd h hoff
    · omega
  simp only [Segment.seg_range, hbr, if_neg hoff]
  simp [chkAdd, chkSub, h1, h2]

/-- Witness for C2: a concrete segment with `byte_range = (100, none)` at
`prev = 20` yields `bytes=20-119` with carried end `119`; one with
`byte_range = (50, some 7)` yields `bytes=50-56` carrying `56`; a segment
without `byte_range` yields `none`. -/
theorem seg_range_spec_witness :
    ({ byte_range := none : Segment }.seg_range 20 = some none)
    ∧ ({ byte_range := some ⟨100, none⟩ : Segment }.seg_range 20 =
        some (some (fmtRange 20 119, 119)))
    ∧ ({ byte_range := some ⟨50, some 7⟩ : Segment }.seg_range 20 =
        some (some (fmtRange 50 56, 56))) := by
refine ⟨(seg_range_spec { byte_range := none } 20).1 rfl, ?_, ?_⟩
· have h := (seg_range_spec { byte_range := some ⟨100, none⟩ } 20).2.1
    ⟨100, none⟩ rfl rfl (by decide) (by decide)
  simpa using h
· have h := (seg_range_spec { byte_range := some ⟨50, some 7⟩ } 20).2.2
    ⟨50, some 7⟩ rfl (by decide) (by decide)
  simpa using h

/-! ## C10: totality / underflow of `seg_range` -/

/-- **C10 counterexample.**  The claim's precondition (`no byte_range` or
`length ≥ 1`) is *not* necessary: the segment with `byte_range.length = 0`
and `offset = some 5` never underflows (the non-zero-offset branch does not
subtract below zero even with `length = 0`), yet `length ≥ 1` fails. -/
theorem seg_range_total_not_necessary :
    ({ byte_range := some ⟨0, some 5⟩ : Segment }).underflowFree
    ∧ ¬ (1 ≤ (0 : Nat)) := by
constructor
· intro prev _
  refine ⟨fun h => by simp at h, fun _ _ => ?_⟩
  simp [Segment.seg_range, chkAdd, chkSub, U64MAX]
· decide

/-- **C10 (amended).**  `seg_range(prev)` is free of `u64` underflow for
every in-range `prev` (sums within `u64::MAX`) precisely when the segment
has no `byte_range`, or its `offset` is present and non-zero, or
`byte_range.length ≥ 1`; and in the specific case `length = 0` with
`offset` absent-or-zero and `prev = 0`, the computation
`end = prev + length - 1` underflows. -/
theorem seg_range_underflow_iff (s : Segment) :
    (s.underflowFree ↔
      (s.byte_range = none
        ∨ ∀ br, s.byte_range = some br → br.offset.getD 0 ≠ 0 ∨ 1 ≤ br.length))
    ∧ (∀ br, s.byte_range = some br → br.length = 0 → br.offset.getD 0 = 0 →
        s.seg_range 0 = none) := by
constructor
· constructor
  · intro h
    cases hbr : s.byte_range with
    | none => exact Or.inl rfl
    | some br =>
      right
      intro br' hbr'
      obtain rfl : br = br' := by injection hbr'
      by_cases hoff : br.offset.getD 0 = 0
      · right
        have h0 := h 0 (by simp [U64MAX])
        rw [hbr] at h0
        have h0' := h0.1 hoff
        by_contra hlen
        have hlen0 : br.length = 0 := by omega
        have : (s.seg_range 0).isSome := h0' (by simp [hlen0, U64MAX])
        rw [Segment.seg_range, hbr] at this
        simp only [hoff, if_pos rfl] at this
        rw [hlen0] at this
        simp [chkAdd, chkSub, U64MAX] at this
      · exact Or.inl hoff
  · intro h prev hprev
    cases hbr : s.byte_range with
    | none => trivial
    | some br =>
      rcases h with h | h
      · rw [hbr] at h; cases h
      · rcases h br hbr with hoff | hlen
        · refine ⟨fun h0 => absurd h0 hoff, fun _ hle => ?_⟩
          rw [Segment.seg_range, hbr]
          simp only [if_neg hoff]
          have h1 : 1 ≤ br.length + br.offset.getD 0 := by
            rcases Nat.eq_zero_or_pos (br.offset.getD 0) with h | h
            · exact absurd h hoff
            · omega
          simp [chkAdd, chkSub, h1, hle]
        · refine ⟨fun h0 hle => ?_, fun hoff hle => ?_⟩
          · rw [Segment.seg_range, hbr]
            simp only [h0, if_pos rfl]
            simp [chkAdd, chkSub, hle]
            omega
          · rw [Segment.seg_range, hbr]
            simp only [if_neg hoff]
            have h1 : 1 ≤ br.length + br.offset.getD 0 := by omega
            simp [chkAdd, chkSub, h1, hle]
· intro br hbr hlen hoff
  rw [Segment.seg_range, hbr]
  simp only [hoff, if_pos rfl, hlen]
  simp [chkAdd, chkSub, U64MAX]

/-- Witness for the amended C10: the segment `byte_range = (0, none)` is not
underflow-free (its characterizing disjunction fails), the segment
`byte_range = (3, none)` is, and at `length = 0`, `offset = none`, `prev = 0`
the arithmetic underflows. -/
theorem seg_range_underflow_iff_witness :
    ¬ ({ byte_range := some ⟨0, none⟩ : Segment }).underflowFree
    ∧ ({ byte_range := some ⟨3, none⟩ : Segment }).underflowFree
    ∧ ({ byte_range := some ⟨0, none⟩ : Segment }).seg_range 0 = none := by
refine ⟨?_, ?_, ?_⟩
· intro h
  have := ((seg_range_underflow_iff { byte_range := some ⟨0, none⟩ }).1.mp h)
  rcases this with h' | h'
  · cases h'
  · rcases h' ⟨0, none⟩ rfl with h'' | h''
    · simp at h''
    · simp at h''
· exact (seg_range_underflow_iff { byte_range := some ⟨3, none⟩ }).1.mpr
    (Or.inr (fun br hbr => by cases hbr; right; decide))
· exact (seg_range_underflow_iff { byte_range := some ⟨0, none⟩ }).2
    ⟨0, none⟩ rfl rfl rfl

end VSD

namespace VSD

/-! ## URL resolution (`Segment::seg_url`, `Segment::map_url`)

The URL type and the parse/join operations belong to the external `reqwest`
(`url` crate) library, so the embedding is parametric in them:
`parse : String → Option α` models `str::parse::<reqwest::Url>` and
`join : α → String → Option α` models `Url::join` (RFC 3986 resolution),
with `none` modelling the respective errors. -/

/-- `str::starts_with` on ASCII data, embedded at the character-list level
(so that it evaluates by `decide`). -/
def strStartsWith (s p : String) : Bool :=
p.data.isPrefixOf s.data

/-- The absolute-URI test `uri.starts_with("http") || uri.starts_with("ftp")`
used by `seg_url`, `map_url` and `key_url`. -/
def startsHttpFtp (uri : String) : Bool :=
strStartsWith uri "http" || strStartsWith uri "ftp"

/-- `Segment::seg_url` from `playlist.rs`: parse the segment URI verbatim when
it starts with `http`/`ftp`, else parse the base URL and join.  `none` models
the `InvalidUrl` failure propagated by `?`. -/
def Segment.seg_url {α : Type} (parse : String → Option α)
    (join : α → String → Option α) (s : Segment) (baseurl : String) : Option α :=
if startsHttpFtp s.uri then parse s.uri
else (parse baseurl).bind fun b => join b s.uri

/-- `Segment::map_url` from `playlist.rs`.  Note that the dispatch tests
`self.uri` (the *segment's* URI), not the map's own URI.  Outer `none` models
the `InvalidUrl` failure; inner `none` means the segment has no map. -/
def Segment.map_url {α : Type} (parse : String → Option α)
    (join : α → String → Option α) (s : Segment) (baseurl : String) :
    Option (Option α) :=
match s.map with
| some map =>
  if startsHttpFtp s.uri then (parse map.uri).map some
  else (parse baseurl).bind fun b => (join b map.uri).map some
| none => some none

/-- Modelled from the spec: the *independent* map-URL resolution the spec
prescribes ("An implementer should resolve the map URI independently against
the base") — the dispatch tests the map's own URI.  This definition is absent
from the source; it exists to exhibit the divergence of claim C8. -/
def mapUrlIndependent {α : Type} (parse : String → Option α)
    (join : α → String → Option α) (s : Segment) (baseurl : String) :
    Option (Option α) :=
match s.map with
| some map =>
  if startsHttpFtp map.uri then (parse map.uri).map some
  else (parse baseurl).bind fun b => (join b map.uri).map some
| none => some none

/-! ## C7: `seg_url` resolution -/

/-- **C7.**  For every segment and base: if the segment URI starts with
`http`/`ftp` the result is the URI parsed verbatim; otherwise it is the URI
joined against the parsed base; and the call fails (`InvalidUrl`) exactly when
the relevant parse or join fails. -/
theorem seg_url_spec {α : Type} (parse : String → Option α)
    (join : α → String → Option α) (s : Segment) (base : String) :
    (startsHttpFtp s.uri = true → s.seg_url parse join base = parse s.uri)
    ∧ (startsHttpFtp s.uri = false →
        s.seg_url parse join base = (parse base).bind fun b => join b s.uri)
    ∧ ((s.seg_url parse join base).isNone = true ↔
        (if startsHttpFtp s.uri then (parse s.uri).isNone = true
         else ((parse base).isNone = true
           ∨ ∃ b, parse base = some b ∧ (join b s.uri).isNone = true))) := by
refine ⟨fun h => by simp [Segment.seg_url, h], fun h => by simp [Segment.seg_url, h], ?_⟩
by_cases h : startsHttpFtp s.uri
· simp [Segment.seg_url, h]
· cases hb : parse base with
  | none => simp [Segment.seg_url, h, hb]
  | some b =>
    simp only [Segment.seg_url, h, hb, Bool.false_eq_true, if_false,
      Option.bind_some]
    constructor
    · intro hj
      exact Or.inr ⟨b, rfl, hj⟩
    · rintro (h' | ⟨b', hb', hj⟩)
      · simp at h'
      · obtain rfl : b = b' := by injection hb'
        exact hj

/-- A tiny concrete instance of the library's URL operations, behaving like
the `url` crate on the inputs used in witnesses: parsing succeeds only on
strings carrying a scheme, and joining an absolute reference replaces the
base while a relative one is appended. -/
def parseConc (s : String) : Option String :=
if strStartsWith s "http://" || strStartsWith s "https://"
    || strStartsWith s "ftp://"
then some s else none

/-- Concrete join companion to `parseConc` (see there). -/
def joinConc (b r : String) : Option String :=
if (parseConc r).isSome then some r else some (b ++ r)

/-- Witness for C7 at concrete inputs: an absolute segment URI is parsed
verbatim, a relative one is joined against the base. -/
theorem seg_url_spec_witness :
    ({ uri := "http://cdn.example.com/a/seg1.ts" : Segment }.seg_url
        parseConc joinConc "http://example.com/pl/"
      = some "http://cdn.example.com/a/seg1.ts")
    ∧ ({ uri := "seg1.ts" : Segment }.seg_url
        parseConc joinConc "http://example.com/pl/"
      = some "http://example.com/pl/seg1.ts") := by
constructor
· have h := (seg_url_spec parseConc joinConc
      { uri := "http://cdn.example.com/a/seg1.ts" } "http://example.com/pl/").1
    (by decide)
  rw [h]
  decide
· have h := (seg_url_spec parseConc joinConc
      { uri := "seg1.ts" } "http://example.com/pl/").2.1 (by decide)
  rw [h]
  decide

/-! ## C8: `map_url` dispatches on the segment URI, not the map URI -/

/-- **C8.**  The code resolves the initialization map's URI by looking at the
*segment's* URI: for the concrete segment whose own URI is absolute but whose
map URI `init.mp4` is relative, `map_url` hands the raw map URI to `parse`
(which fails on a relative reference, as `parseConc` shows), while the
spec-prescribed independent resolution joins it against the base and
succeeds.  This exhibits the divergence at the failing input. -/
theorem map_url_short_circuit :
    (∀ {α : Type} (parse : String → Option α) (join : α → String → Option α),
      ({ uri := "http://example.com/video/seg1.m4s",
         map := some ⟨"init.mp4", none⟩ : Segment }).map_url parse join
          "http://example.com/video/"
        = (parse "init.mp4").map some)
    ∧ ({ uri := "http://example.com/video/seg1.m4s",
         map := some ⟨"init.mp4", none⟩ : Segment }).map_url parseConc joinConc
          "http://example.com/video/" = none
    ∧ mapUrlIndependent parseConc joinConc
        { uri := "http://example.com/video/seg1.m4s",
          map := some ⟨"init.mp4", none⟩ } "http://example.com/video/"
        = some (some "http://example.com/video/init.mp4") := by
refine ⟨?_, by decide, by decide⟩
intro α parse join
have h : startsHttpFtp "http://example.com/video/seg1.m4s" = true := by decide
simp [Segment.map_url, h]

/-! ## Stream selection (`MasterPlaylist::select_streams`) -/

/-- `enum Quality` from `commands.rs`, with exactly the variants matched in
`select_streams`. -/
inductive Quality where
  | Lowest
  | Highest
  | SelectLater
  | Resolution (w h : Nat)
  | Youtube144p
  | Youtube240p
  | Youtube360p
  | Youtube480p
  | Youtube720p
  | Youtube1080p
  | Youtube2k
  | Youtube1440p
  | Youtube4k
  | Youtube8k
deriving DecidableEq, Repr

/-- `struct MediaPlaylist` from `playlist.rs`.  `channels` and `frame_rate`
are `f32` in the source; they take part only in bitwise-faithful total-order
comparisons, so they are embedded as their IEEE-754 bit patterns (`Nat`). -/
structure MediaPlaylist where
  bandwidth : Option Nat := none
  channels : Option Nat := none
  codecs : Option String := none
  extension : Option String := none
  frame_rate : Option Nat := none
  i_frame : Bool := false
  language : Option String := none
  live : Bool := false
  media_type : MediaType := .Undefined
  playlist_type : PlaylistType := .Hls
  resolution : Option (Nat × Nat) := none
  segments : List Segment := []
  uri : String := ""
deriving DecidableEq, Repr

/-- `MediaPlaylist::has_resolution` from `playlist.rs` (`w`, `h` are `u16`
values, compared after widening to `u64`). -/
def MediaPlaylist.has_resolution (p : MediaPlaylist) (w h : Nat) : Bool :=
match p.resolution with
| some (video_w, video_h) => w == video_w && h == video_h
| none => false

/-- `struct MasterPlaylist` from `playlist.rs`. -/
structure MasterPlaylist where
  playlist_type : PlaylistType := .Hls
  uri : String := ""
  streams : List MediaPlaylist := []

/-- The default-video-stream choice of `MasterPlaylist::select_streams`
(the `match quality` over the filtered video iterator). -/
def selectDefaultVideo (videos : List MediaPlaylist) (q : Quality) :
    Option MediaPlaylist :=
match q with
| .Lowest => videos.getLast?
| .Highest => videos.head?
| .SelectLater => videos.head?
| .Resolution w h => videos.find? fun x => x.has_resolution w h
| .Youtube144p => videos.find? fun x => x.has_resolution 256 144
| .Youtube240p => videos.find? fun x => x.has_resolution 426 240
| .Youtube360p => videos.find? fun x => x.has_resolution 640 360
| .Youtube480p => videos.find? fun x => x.has_resolution 854 480
| .Youtube720p => videos.find? fun x => x.has_resolution 1280 720
| .Youtube1080p => videos.find? fun x => x.has_resolution 1920 1080
| .Youtube2k => videos.find? fun x => x.has_resolution 2048 1080
| .Youtube1440p => videos.find? fun x => x.has_resolution 2560 1440
| .Youtube4k => videos.find? fun x => x.has_resolution 3840 2160
| .Youtube8k => videos.find? fun x => x.has_resolution 7680 4320

/-- The `{:?}` debug rendering of `Quality` used in the failure message. -/
def qualityDebug : Quality → String
| .Lowest => "Lowest"
| .Highest => "Highest"
| .SelectLater => "SelectLater"
| .Resolution w h => "Resolution(" ++ Nat.repr w ++ ", " ++ Nat.repr h ++ ")"
| .Youtube144p => "Youtube144p"
| .Youtube240p => "Youtube240p"
| .Youtube360p => "Youtube360p"
| .Youtube480p => "Youtube480p"
| .Youtube720p => "Youtube720p"
| .Youtube1080p => "Youtube1080p"
| .Youtube2k => "Youtube2k"
| .Youtube1440p => "Youtube1440p"
| .Youtube4k => "Youtube4k"
| .Youtube8k => "Youtube8k"

/-- The `bail!("playlist doesn't contain {:?} quality stream", quality)`
message. -/
def noQualityMsg (q : Quality) : String :=
"playlist doesn't contain " ++ qualityDebug q ++ " quality stream"

/-- `MasterPlaylist::select_streams` from `playlist.rs`, reduced to its
selection core: the interactive prompt is I/O and out of scope; the function
returns the computed default video stream, or the quality error. -/
def MasterPlaylist.select_streams (p : MasterPlaylist) (q : Quality) :
    Except String MediaPlaylist :=
match selectDefaultVideo
    (p.streams.filter fun x => x.media_type == .Video) q with
| some s => .ok s
| none => .error (noQualityMsg q)

end VSD

namespace VSD

/-! ## C5: default video stream selection -/

/-- **C5.**  Over the (sorted) video list: `Highest`/`SelectLater` pick the
first video stream, `Lowest` the last; `Resolution(w,h)` and each fixed
YouTube preset pick the *first* stream whose resolution equals exactly the
requested pair; and when nothing matches, selection fails with the
no-matching-quality error. -/
theorem select_streams_spec (p : MasterPlaylist) :
    (∀ x, (p.streams.filter fun s => s.media_type == .Video).head? = some x →
      p.select_streams .Highest = .ok x ∧ p.select_streams .SelectLater = .ok x)
    ∧ (∀ x, (p.streams.filter fun s => s.media_type == .Video).getLast? = some x →
        p.select_streams .Lowest = .ok x)
    ∧ (∀ w h x, p.select_streams (.Resolution w h) = .ok x →
        x.has_resolution w h = true
        ∧ ∃ pre post,
            (p.streams.filter fun s => s.media_type == .Video) = pre ++ x :: post
            ∧ ∀ y ∈ pre, y.has_resolution w h = false)
    ∧ (selectDefaultVideo (p.streams.filter fun s => s.media_type == .Video)
          .Youtube144p
        = (p.streams.filter fun s => s.media_type == .Video).find?
            (fun x => x.has_resolution 256 144)
      ∧ selectDefaultVideo (p.streams.filter fun s => s.media_type == .Video)
          .Youtube720p
        = (p.streams.filter fun s => s.media_type == .Video).find?
            (fun x => x.has_resolution 1280 720)
      ∧ selectDefaultVideo (p.streams.filter fun s => s.media_type == .Video)
          .Youtube1080p
        = (p.streams.filter fun s => s.media_type == .Video).find?
            (fun x => x.has_resolution 1920 1080)
      ∧ selectDefaultVideo (p.streams.filter fun s => s.media_type == .Video)
          .Youtube4k
        = (p.streams.filter fun s => s.media_type == .Video).find?
            (fun x => x.has_resolution 3840 2160))
    ∧ (∀ q, selectDefaultVideo
          (p.streams.filter fun s => s.media_type == .Video) q = none →
        p.select_streams q = .error (noQualityMsg q)) := by
refine ⟨?_, ?_, ?_, ⟨rfl, rfl, rfl, rfl⟩, ?_⟩
· intro x hx
  constructor
  · simp [MasterPlaylist.select_streams, selectDefaultVideo, hx]
  · simp [MasterPlaylist.select_streams, selectDefaultVideo, hx]
· intro x hx
  simp [MasterPlaylist.select_streams, selectDefaultVideo, hx]
· intro w h x hx
  rw [MasterPlaylist.select_streams] at hx
  cases hfind : selectDefaultVideo
      (p.streams.filter fun s => s.media_type == .Video) (.Resolution w h) with
  | none => rw [hfind] at hx; cases hx
  | some y =>
    rw [hfind] at hx
    obtain rfl : y = x := by cases hx; rfl
    rw [selectDefaultVideo] at hfind
    rw [List.find?_eq_some] at hfind
    obtain ⟨hres, pre, post, heq, hpre⟩ := hfind
    refine ⟨hres, pre, post, heq, fun y hy => ?_⟩
    have := hpre y hy
    simpa using this
· intro q hq
  simp [MasterPlaylist.select_streams, hq]

/-- Witness for C5 on a concrete three-stream playlist (1080p, 720p video and
one audio): `Highest` picks the first video, `Lowest` the last,
`Resolution(1280,720)` the first exact match, and an absent `8K` quality
fails with the error message. -/
theorem select_streams_spec_witness :
    ({ streams := [
        { media_type := .Video, resolution := some (1920, 1080) },
        { media_type := .Video, resolution := some (1280, 720) },
        { media_type := .Audio } ] : MasterPlaylist }.select_streams .Highest
      = .ok { media_type := .Video, resolution := some (1920, 1080) })
    ∧ ({ streams := [
        { media_type := .Video, resolution := some (1920, 1080) },
        { media_type := .Video, resolution := some (1280, 720) },
        { media_type := .Audio } ] : MasterPlaylist }.select_streams .Lowest
      = .ok { media_type := .Video, resolution := some (1280, 720) })
    ∧ ({ streams := [
        { media_type := .Video, resolution := some (1920, 1080) },
        { media_type := .Video, resolution := some (1280, 720) },
        { media_type := .Audio } ] : MasterPlaylist }.select_streams
          (.Resolution 1280 720)
      = .ok { media_type := .Video, resolution := some (1280, 720) })
    ∧ ({ streams := [
        { media_type := .Video, resolution := some (1920, 1080) },
        { media_type := .Video, resolution := some (1280, 720) },
        { media_type := .Audio } ] : MasterPlaylist }.select_streams .Youtube8k
      = .error (noQualityMsg .Youtube8k)) := by
refine ⟨?_, ?_, rfl, ?_⟩
· exact ((select_streams_spec _).1 _ (by decide)).1
· exact (select_streams_spec _).2.1 _ (by decide)
· exact (select_streams_spec _).2.2.2.2 .Youtube8k (by decide)

/-! ## Segment fetch retry (`ThreadData::download_segment`,
`check_reqwest_error`, `downloader.rs`) -/

/-- The observable shape of a `reqwest::Error`: the `is_timeout()` and
`is_connect()` predicates, the optional HTTP status, and the URL used in
messages (terminal colorization is dropped). -/
structure ReqwestError where
  is_timeout : Bool
  is_connect : Bool
  status : Option Nat
  url : String
deriving DecidableEq, Repr

/-- `check_reqwest_error` from `downloader.rs`: `.ok msg` when the error is
retryable (the message that is printed), `.error` for the fatal bail. -/
def check_reqwest_error (e : ReqwestError) : Except String String :=
if e.is_timeout then .ok ("    Request " ++ e.url ++ " (timeout)")
else if e.is_connect then .ok ("    Request " ++ e.url ++ " (connection error)")
else
  match e.status with
  | some s =>
    if s = 408 then .ok ("    Request " ++ e.url ++ " (timeout)")
    else if s = 429 then .ok ("    Request " ++ e.url ++ " (too many requests)")
    else if s = 503 then
      .ok ("    Request " ++ e.url ++ " (service unavailable)")
    else if s = 504 then .ok ("    Request " ++ e.url ++ " (gateway timeout)")
    else .error ("download failed " ++ e.url ++ " (HTTP " ++ Nat.repr s ++ ")")
  | none => .error ("download failed " ++ e.url)

/-- The retry classification named by the spec: timeout, connect, or one of
the HTTP statuses 408, 429, 503, 504. -/
def retriable (e : ReqwestError) : Bool :=
e.is_timeout || e.is_connect
  || (e.status == some 408 || e.status == some 429
      || e.status == some 503 || e.status == some 504)

/-- The `bail!` message of retry exhaustion, naming the segment index. -/
def retriesExceededMsg (index : Nat) : String :=
"reached maximum number of retries to download segment at index "
  ++ Nat.repr index ++ "."

/-- One attempt of the `fetch_segment` closure: success with the body bytes,
or a `reqwest` error. -/
inductive FetchOutcome where
  | ok (bytes : List Nat)
  | err (e : ReqwestError)
deriving DecidableEq, Repr

/-- The retry loop of `ThreadData::download_segment`, driven by the sequence
of outcomes the network produces for the successive attempts.  `retries` is
the mutable attempt counter (starting at 0), `total_retries` the
`retry_count` budget.  `none` models the (unreachable in practice) case where
the outcome sequence is exhausted while the loop would continue. -/
def download_segment_loop (index total_retries : Nat) :
    Nat → List FetchOutcome → Option (Except String (List Nat))
| _, [] => none
| _, .ok bytes :: _ => some (.ok bytes)
| retries, .err e :: rest =>
  if retries < total_retries then
    match check_reqwest_error e with
    | .error msg => some (.error msg)
    | .ok _ => download_segment_loop index total_retries (retries + 1) rest
  else some (.error (retriesExceededMsg index))

/-- `ThreadData::download_segment`, starting with a zeroed attempt counter. -/
def download_segment (index total_retries : Nat)
    (outcomes : List FetchOutcome) : Option (Except String (List Nat)) :=
download_segment_loop index total_retries 0 outcomes

end VSD

namespace VSD

/-! ## C3: retry classification and exhaustion -/

/-- Helper (shared by the C3 theorem): `check_reqwest_error` returns a
printable retry message exactly for the retryable classification. -/
theorem check_reqwest_error_ok_iff (e : ReqwestError) :
    (∃ msg, check_reqwest_error e = .ok msg) ↔ retriable e = true := by
rcases ht : e.is_timeout with _ | _
· rcases hc : e.is_connect with _ | _
  · cases hs : e.status with
    | none => simp [check_reqwest_error, retriable, ht, hc, hs]
    | some n =>
      by_cases h408 : n = 408
      · simp [check_reqwest_error, retriable, ht, hc, hs, h408]
      · by_cases h429 : n = 429
        · simp [check_reqwest_error, retriable, ht, hc, hs, h408, h429]
        · by_cases h503 : n = 503
          · simp [check_reqwest_error, retriable, ht, hc, hs, h408, h429, h503]
          · by_cases h504 : n = 504
            · simp [check_reqwest_error, retriable, ht, hc, hs, h408, h429,
                h503, h504]
            · simp [check_reqwest_error, retriable, ht, hc, hs, h408, h429,
                h503, h504]
  · simp [check_reqwest_error, retriable, ht, hc]
· simp [check_reqwest_error, retriable, ht]

/-- Helper: on an all-retryable error run one longer than the remaining
budget, the loop ends in the retries-exceeded bail. -/
theorem download_segment_loop_exhaust (index total_retries : Nat) :
    ∀ (es : List FetchOutcome) (retries : Nat) (rest : List FetchOutcome),
      retries ≤ total_retries →
      retries + es.length = total_retries + 1 →
      (∀ o ∈ es, ∃ e, o = .err e ∧ retriable e = true) →
      download_segment_loop index total_retries retries (es ++ rest)
        = some (.error (retriesExceededMsg index)) := by
intro es
induction es with
| nil => intro retries rest hle hlen _; simp at hlen; omega
| cons o es ih =>
  intro retries rest hle hlen hall
  obtain ⟨e, rfl, he⟩ := hall o (by simp)
  by_cases hr : retries < total_retries
  · obtain ⟨msg, hmsg⟩ := (check_reqwest_error_ok_iff e).mpr he
    rw [List.cons_append, download_segment_loop, if_pos hr, hmsg]
    exact ih (retries + 1) rest (by omega) (by simp at hlen ⊢; omega)
      fun o ho => hall o (by simp [ho])
  · rw [List.cons_append, download_segment_loop, if_neg hr]

/-- **C3.**  (i) `check_reqwest_error` accepts (retries) exactly the
timeout/connect transport errors and the HTTP statuses 408, 429, 503, 504 —
every other error is a fatal bail, so a non-retryable error fails on its
first occurrence; (ii) each retry advances the attempt counter by one while
the budget lasts; (iii) after `retry_count + 1` retryable failures the
download fails with the retries-exceeded message naming the segment index. -/
theorem retry_classification (index total_retries : Nat) :
    (∀ e, (∃ msg, check_reqwest_error e = .ok msg) ↔ retriable e = true)
    ∧ (∀ e rest retries, retriable e = true → retries < total_retries →
        download_segment_loop index total_retries retries (.err e :: rest)
          = download_segment_loop index total_retries (retries + 1) rest)
    ∧ (∀ e rest retries, retriable e = false →
        ∃ msg, download_segment_loop index total_retries retries
            (.err e :: rest) = some (.error msg))
    ∧ (∀ es rest, es.length = total_retries + 1 →
        (∀ o ∈ es, ∃ e, o = .err e ∧ retriable e = true) →
        download_segment index total_retries (es ++ rest)
          = some (.error (retriesExceededMsg index))) := by
refine ⟨check_reqwest_error_ok_iff, ?_, ?_, ?_⟩
· intro e rest retries he hr
  obtain ⟨msg, hmsg⟩ := (check_reqwest_error_ok_iff e).mpr he
  rw [download_segment_loop, if_pos hr, hmsg]
· intro e rest retries he
  by_cases hr : retries < total_retries
  · cases hcheck : check_reqwest_error e with
    | ok msg =>
      exact absurd ((check_reqwest_error_ok_iff e).mp ⟨msg, hcheck⟩)
        (by simp [he])
    | error msg =>
      exact ⟨msg, by rw [download_segment_loop, if_pos hr, hcheck]⟩
  · exact ⟨retriesExceededMsg index, by rw [download_segment_loop, if_neg hr]⟩
· intro es rest hlen hall
  exact download_segment_loop_exhaust index total_retries es 0 rest
    (by omega) (by omega) hall

/-- Witness for C3: with budget `retry_count = 2`, three successive 503
responses exhaust the retries for segment 7; a single 404 is fatal at once;
and a 503 is classified retryable while a 404 is not. -/
theorem retry_classification_witness :
    (download_segment 7 2
        [.err ⟨false, false, some 503, "u"⟩, .err ⟨false, false, some 503, "u"⟩,
         .err ⟨false, false, some 503, "u"⟩]
      = some (.error (retriesExceededMsg 7)))
    ∧ (∃ msg, download_segment_loop 7 2 0
        [.err ⟨false, false, some 404, "u"⟩] = some (.error msg))
    ∧ retriable ⟨false, false, some 503, "u"⟩ = true
    ∧ retriable ⟨false, false, some 404, "u"⟩ = false := by
refine ⟨?_, ?_, by decide, by decide⟩
· have h := (retry_classification 7 2).2.2.2
    [.err ⟨false, false, some 503, "u"⟩, .err ⟨false, false, some 503, "u"⟩,
     .err ⟨false, false, some 503, "u"⟩] [] (by decide) ?_
  · simpa using h
  · intro o ho
    simp only [List.mem_cons, List.not_mem_nil, or_false] at ho
    rcases ho with rfl | rfl | rfl <;> exact ⟨_, rfl, by decide⟩
· exact (retry_classification 7 2).2.2.1 ⟨false, false, some 404, "u"⟩ [] 0
    (by decide)

end VSD

namespace VSD

/-! ## Decryption keys (`struct Keys`, `downloader.rs`)

Key/kid strings are ASCII hex, embedded as character lists (one byte per
character), matching the `Vec<u8>` of the source. -/

/-- `str::split(c)` at the character-list level: always returns at least one
(possibly empty) piece; a separator at the end yields a trailing empty
piece. -/
def splitChar (c : Char) : List Char → List (List Char)
| [] => [[]]
| x :: xs =>
  if x = c then [] :: splitChar c xs
  else
    match splitChar c xs with
    | [] => [[x]]
    | h :: t => (x :: h) :: t

/-- `struct Keys` from `downloader.rs`. -/
structure Keys where
  bytes : List Char
  iv : Option String
  method : KeyMethod
deriving DecidableEq

/-- `Keys::from_hex_keys` from `downloader.rs`: serialize the map entries as
`kid:key;` pieces then slice off the final byte.  The iteration order of the
Rust `HashMap` is unspecified, so the argument is the entry sequence in the
order iterated.  `none` models the panic of
`bytes.get(..(bytes.len() - 1)).unwrap()` on an empty map. -/
def Keys.from_hex_keys (keys : List (List Char × List Char)) : Option Keys :=
let bytes := (keys.map fun kv => kv.1 ++ ':' :: (kv.2 ++ [';'])).flatten
if bytes.length = 0 then none
else some ⟨bytes.dropLast, none, .Cenc⟩

/-- `Keys::as_hex_keys` from `downloader.rs`: split on `;`, then split each
piece on `:` and take the first two fields.  `none` models the
`kid_key.get(1).unwrap()` panic on a piece without `:`. -/
def Keys.as_hex_keys (k : Keys) : Option (List (List Char × List Char)) :=
(splitChar ';' k.bytes).mapM fun part =>
  match splitChar ':' part with
  | a :: b :: _ => some (a, b)
  | _ => none

/-- The serialization format named by the spec: `kid:key;kid:key;...`,
ASCII, with no trailing separator. -/
def serKeys : List (List Char × List Char) → List Char
| [] => []
| [kv] => kv.1 ++ ':' :: kv.2
| kv :: kv' :: rest => kv.1 ++ ':' :: kv.2 ++ ';' :: serKeys (kv' :: rest)

/-- `splitChar` does not split inside a separator-free piece. -/
theorem splitChar_no_sep (c : Char) :
    ∀ (a : List Char), c ∉ a → splitChar c a = [a] := by
intro a
induction a with
| nil => intro _; rfl
| cons x xs ih =>
  intro h
  rw [splitChar]
  rw [if_neg (by intro hx; exact h (hx ▸ List.mem_cons_self x xs))]
  rw [ih fun hx => h (List.mem_cons_of_mem x hx)]

/-- `splitChar` peels one separator-free piece at a leading separator. -/
theorem splitChar_append (c : Char) :
    ∀ (a rest : List Char), c ∉ a →
      splitChar c (a ++ c :: rest) = a :: splitChar c rest := by
intro a
induction a with
| nil => intro rest _; simp [splitChar]
| cons x xs ih =>
  intro rest h
  rw [List.cons_append, splitChar]
  rw [if_neg (by intro hx; exact h (hx ▸ List.mem_cons_self x xs))]
  rw [ih rest fun hx => h (List.mem_cons_of_mem x hx)]

/-- The serialization with trailing separators is the no-trailing-separator
format followed by one final `;`. -/
theorem flatten_eq_serKeys_concat :
    ∀ (m : List (List Char × List Char)), m ≠ [] →
      (m.map fun kv => kv.1 ++ ':' :: (kv.2 ++ [';'])).flatten
        = serKeys m ++ [';'] := by
intro m
induction m with
| nil => intro h; exact absurd rfl h
| cons kv rest ih =>
  intro _
  cases rest with
  | nil => simp [serKeys]
  | cons kv' rest' =>
    simp only [List.map_cons, List.flatten_cons] at ih ⊢
    rw [show ((kv'.1 ++ ':' :: (kv'.2 ++ [';']))
          ++ ((rest'.map fun kv => kv.1 ++ ':' :: (kv.2 ++ [';'])).flatten))
        = serKeys (kv' :: rest') ++ [';'] by
      have h := ih (List.cons_ne_nil kv' rest')
      simp only [List.map_cons, List.flatten_cons] at h
      exact h]
    rw [serKeys]
    simp

/-- The sliced serialization that `from_hex_keys` builds equals the
no-trailing-separator format. -/
theorem dropLast_flatten_eq_serKeys (m : List (List Char × List Char))
    (hm : m ≠ []) :
    ((m.map fun kv => kv.1 ++ ':' :: (kv.2 ++ [';'])).flatten).dropLast
      = serKeys m := by
rw [flatten_eq_serKeys_concat m hm, List.dropLast_concat]

/-- Splitting the serialization on `;` recovers the `kid:key` pieces. -/
theorem splitChar_serKeys (m : List (List Char × List Char)) (hm : m ≠ [])
    (hclean : ∀ kv ∈ m, (':' ∉ kv.1 ∧ ';' ∉ kv.1) ∧ ':' ∉ kv.2 ∧ ';' ∉ kv.2) :
    splitChar ';' (serKeys m) = m.map fun kv => kv.1 ++ ':' :: kv.2 := by
induction m with
| nil => exact absurd rfl hm
| cons kv rest ih =>
  have hkv := hclean kv (by simp)
  have hnosep : ';' ∉ kv.1 ++ ':' :: kv.2 := by
    intro h
    rcases List.mem_append.mp h with h | h
    · exact hkv.1.2 h
    · rcases List.mem_cons.mp h with h | h
      · cases h
      · exact hkv.2.2 h
  cases rest with
  | nil =>
    rw [serKeys, splitChar_no_sep ';' _ hnosep, List.map_cons, List.map_nil]
  | cons kv' rest' =>
    rw [serKeys]
    rw [show kv.1 ++ ':' :: kv.2 ++ ';' :: serKeys (kv' :: rest')
        = (kv.1 ++ ':' :: kv.2) ++ ';' :: serKeys (kv' :: rest') by simp]
    rw [splitChar_append ';' _ _ hnosep]
    rw [ih (List.cons_ne_nil kv' rest')
      fun kv h => hclean kv (List.mem_cons_of_mem _ h)]
    simp

/-- Splitting one `kid:key` piece on `:` yields the pair back. -/
theorem splitChar_piece (kid key : List Char) (hkid : ':' ∉ kid)
    (hkey : ':' ∉ key) :
    splitChar ':' (kid ++ ':' :: key) = [kid, key] := by
rw [splitChar_append ':' _ _ hkid, splitChar_no_sep ':' _ hkey]

/-- **C9.**  For a non-empty key map whose kids and keys avoid `:` and `;`,
`from_hex_keys` produces exactly the ASCII `kid:key;kid:key;...`
serialization without trailing separator (method `Cenc`, no IV), and
`as_hex_keys` recovers exactly the original entries. -/
theorem keys_roundtrip (m : List (List Char × List Char)) (hm : m ≠ [])
    (hclean : ∀ kv ∈ m, (':' ∉ kv.1 ∧ ';' ∉ kv.1) ∧ ':' ∉ kv.2 ∧ ';' ∉ kv.2) :
    ∃ k, Keys.from_hex_keys m = some k
      ∧ k.bytes = serKeys m
      ∧ k.method = .Cenc
      ∧ k.iv = none
      ∧ k.as_hex_keys = some m := by
obtain ⟨kv0, rest0, rfl⟩ : ∃ kv0 rest0, m = kv0 :: rest0 := by
  cases m with
  | nil => exact absurd rfl hm
  | cons a b => exact ⟨a, b, rfl⟩
have hne : ((kv0 :: rest0).map fun kv =>
    kv.1 ++ ':' :: (kv.2 ++ [';'])).flatten.length ≠ 0 := by
  simp
refine ⟨⟨serKeys (kv0 :: rest0), none, .Cenc⟩, ?_, rfl, rfl, rfl, ?_⟩
· rw [Keys.from_hex_keys]
  simp only [if_neg hne]
  rw [dropLast_flatten_eq_serKeys _ (by simp)]
· rw [Keys.as_hex_keys]
  simp only
  rw [splitChar_serKeys _ (by simp) hclean]
  generalize hgen : kv0 :: rest0 = m'
  have hclean' : ∀ kv ∈ m', ':' ∉ kv.1 ∧ ':' ∉ kv.2 := by
    intro kv h
    rw [← hgen] at h
    exact ⟨(hclean kv h).1.1, (hclean kv h).2.1⟩
  clear hgen hne hclean
  induction m' with
  | nil => rfl
  | cons kv rest ih =>
    rw [List.map_cons, List.mapM_cons]
    rw [splitChar_piece kv.1 kv.2 (hclean' kv (by simp)).1
      (hclean' kv (by simp)).2]
    simp only
    rw [ih fun kv h => hclean' kv (List.mem_cons_of_mem _ h)]
    rfl

/-- Witness for C9 at the concrete two-entry map `ab ↦ cd`, `ef ↦ 12`:
serialization `ab:cd;ef:12` and exact recovery. -/
theorem keys_roundtrip_witness :
    ∃ k, Keys.from_hex_keys [(['a','b'], ['c','d']), (['e','f'], ['1','2'])]
        = some k
      ∧ k.bytes = serKeys [(['a','b'], ['c','d']), (['e','f'], ['1','2'])]
      ∧ k.method = .Cenc
      ∧ k.iv = none
      ∧ k.as_hex_keys = some [(['a','b'], ['c','d']), (['e','f'], ['1','2'])] := by
refine keys_roundtrip _ (by decide) ?_
intro kv h
simp only [List.mem_cons, List.not_mem_nil, or_false] at h
rcases h with rfl | rfl <;> exact ⟨⟨by decide, by decide⟩, by decide, by decide⟩

end VSD

namespace VSD

/-! ## C4: key-id coverage check (`download`, `downloader.rs`) -/

/-- `MediaPlaylist::is_hls`. -/
def MediaPlaylist.is_hls (p : MediaPlaylist) : Bool :=
p.playlist_type == .Hls

/-- `default_kid.replace('-', "")`: hyphen stripping. -/
def stripHyphens (s : String) : String :=
⟨s.data.filter fun c => c ≠ '-'⟩

/-- `HashSet::insert`, modelled on a duplicate-free list. -/
def insertKid (x : String) (l : List String) : List String :=
if x ∈ l then l else l ++ [x]

/-- The unsupported-method bail messages of the kid-collection loop
(terminal colorization dropped). -/
def unsupportedMethodMsg (x : String) : String :=
x ++ " decryption is not supported. Use --no-decrypt flag to download encrypted streams."

/-- The sample-aes bail message of the kid-collection loop. -/
def sampleAesMsg : String :=
"sample-aes (HLS) decryption is not supported. Use --no-decrypt flag to download encrypted streams."

/-- The per-stream method admissibility test inside the kid-collection loop
of `download` (`downloader.rs` lines 249-260). -/
def method_check (stream : MediaPlaylist) (key : MediaKey)
    (no_decrypt : Bool) : Except String Unit :=
if no_decrypt then .ok () else
  match key.method with
  | .Other x => .error (unsupportedMethodMsg x)
  | .SampleAes => if stream.is_hls then .error sampleAesMsg else .ok ()
  | _ => .ok ()

/-- The `default_kids` collection loop of `download` (`downloader.rs` lines
244-267): for each selected video/audio stream, look at the first segment's
key, bail on unsupported methods (unless `no_decrypt`), and insert the
hyphen-stripped `default_kid` into the set (accumulator `acc`). -/
def collect_default_kids (no_decrypt : Bool) :
    List MediaPlaylist → List String → Except String (List String)
| [], acc => .ok acc
| stream :: rest, acc =>
  match stream.segments.head? with
  | some segment =>
    match segment.key with
    | some key =>
      match method_check stream key no_decrypt with
      | .error e => .error e
      | .ok _ =>
        match key.default_kid with
        | some dk =>
          collect_default_kids no_decrypt rest (insertKid (stripHyphens dk) acc)
        | none => collect_default_kids no_decrypt rest acc
    | none => collect_default_kids no_decrypt rest acc
  | none => collect_default_kids no_decrypt rest acc

/-- The `bail!` message of the missing-key check (colorization dropped);
it instructs using the `--key` flag. -/
def missingKeyMsg : String :=
"use --key flag to specify CENC content decryption keys for at least * (star) prefixed key ids."

/-- The key-coverage loop of `download` (`downloader.rs` lines 311-323):
for each collected `default_kid`, bail unless some user-supplied pair has
exactly that kid (pairs without a kid never match), or `no_decrypt`. -/
def check_key_coverage (keys : List (Option String × String))
    (no_decrypt : Bool) : List String → Except String Unit
| [] => .ok ()
| dk :: rest =>
  if ¬ (keys.any fun k => k.1 == some dk) ∧ no_decrypt = false
  then .error missingKeyMsg
  else check_key_coverage keys no_decrypt rest

/-- The ordered list of video/audio segment downloads the download loop
performs, as (stream index, segment index) pairs. -/
def segActions (streams : List MediaPlaylist) : List (Nat × Nat) :=
(streams.enum.map fun p => (List.range p.2.segments.length).map
  fun j => (p.1, j)).flatten

/-- The video/audio phase of `download` in its source order: collect the
`default_kids` (with the unsupported-method bails), run the key-coverage
check, and only then perform the segment downloads of the selected
streams — an error therefore precedes every segment download. -/
def downloadVA (streams : List MediaPlaylist)
    (keys : List (Option String × String)) (no_decrypt : Bool) :
    Except String (List (Nat × Nat)) :=
(collect_default_kids no_decrypt streams []).bind fun kids =>
  (check_key_coverage keys no_decrypt kids).bind fun _ =>
    .ok (segActions streams)

/-- Helper: an uncovered kid anywhere in the collected set makes the
coverage check fail with the missing-key message. -/
theorem check_key_coverage_error (keys : List (Option String × String)) :
    ∀ (kids : List String) (dk : String), dk ∈ kids →
      (∀ k ∈ keys, k.1 ≠ some dk) →
      check_key_coverage keys false kids = .error missingKeyMsg := by
intro kids
induction kids with
| nil => intro dk h; simp at h
| cons k rest ih =>
  intro dk hdk hnokey
  by_cases hk : keys.any fun p => p.1 == some k
  · rw [check_key_coverage, if_neg (by simp [hk])]
    have hne : dk ≠ k := by
      rintro rfl
      obtain ⟨p, hp, hpk⟩ := List.any_eq_true.mp hk
      exact hnokey p hp (by simpa using hpk)
    exact ih dk (by rcases List.mem_cons.mp hdk with h | h; exact absurd h hne; exact h)
      hnokey
  · rw [check_key_coverage, if_pos (by simp [hk])]

/-- **C4.**  With `no_decrypt = false`, if the kid-collection phase succeeds
producing the hyphen-stripped `default_kids` of the first segments and some
collected kid has no matching kid among the user-supplied pairs, the run
fails with the missing-key message — which instructs using `--key` — and,
the check preceding the download loop, no video/audio segment download
happens (no `.ok` action list is produced). -/
theorem missing_key_check (streams : List MediaPlaylist)
    (keys : List (Option String × String)) (kids : List String) (dk : String)
    (hkids : collect_default_kids false streams [] = .ok kids)
    (hdk : dk ∈ kids)
    (hnokey : ∀ k ∈ keys, k.1 ≠ some dk) :
    downloadVA streams keys false = .error missingKeyMsg
    ∧ (∃ pre post, missingKeyMsg = pre ++ "--key" ++ post)
    ∧ ∀ acts, downloadVA streams keys false ≠ .ok acts := by
have herr : downloadVA streams keys false = .error missingKeyMsg := by
  rw [downloadVA, hkids]
  rw [Except.bind]
  rw [check_key_coverage_error keys kids dk hdk hnokey]
  rfl
refine ⟨herr, ⟨"use ", " flag to specify CENC content decryption keys for at least * (star) prefixed key ids.", by decide⟩, ?_⟩
intro acts h
rw [herr] at h
cases h

/-- The concrete CENC video stream used by the C4 witness: its first
segment's key carries `default_kid = "abc-def"`. -/
def c4Stream : MediaPlaylist :=
{ media_type := .Video,
  segments := [{ uri := "s0.m4s",
                 key := some ⟨some "abc-def", none, none, .Cenc, ""⟩ }] }

/-- Witness for C4: one CENC video stream with `default_kid = "abc-def"` and
no user keys fails with the missing-key message. -/
theorem missing_key_check_witness :
    downloadVA [c4Stream] [] false = .error missingKeyMsg := by
exact (missing_key_check [c4Stream] [] ["abcdef"] "abcdef" rfl
  (by decide) (by intro k h; simp at h)).1

end VSD

namespace VSD

/-! ## C1: the Merger (in-order parallel assembler)

`merger.rs` is not part of the sources under review (only its caller
`ThreadData::perform` in `downloader.rs` is), so the Merger is modelled from
the spec. -/

/-- Association-list lookup for the pending map (`HashMap<usize, Vec<u8>>`). -/
def pendLookup (i : Nat) : List (Nat × List Nat) → Option (List Nat)
| [] => none
| (j, b) :: rest => if j = i then some b else pendLookup i rest

/-- Removal of a pending entry (`HashMap::remove`). -/
def pendErase (i : Nat) : List (Nat × List Nat) → List (Nat × List Nat)
| [] => []
| (j, b) :: rest => if j = i then rest else (j, b) :: pendErase i rest

/-- Modelled from the spec: the Merger state of §4.F (`merger.rs` is absent
from the reviewed sources).  `size` is the segment count, `file` the byte
sequence written to the output file so far, `next_index` the next in-order
index, `pending` the buffered out-of-order segments. -/
structure Merger where
  size : Nat
  file : List Nat
  next_index : Nat
  pending : List (Nat × List Nat)
deriving Repr

/-- Modelled from the spec: Merger construction with `(segment_count,
output_path)` — the path is the file identity and carries no state here. -/
def Merger.new (size : Nat) : Merger :=
⟨size, [], 0, []⟩

/-- Modelled from the spec: drain now-consecutive pending entries onto the
file.  The fuel (at least the pending-map size at every call) stands for the
loop's termination. -/
def drainFuel : Nat → Merger → Merger
| 0, m => m
| fuel + 1, m =>
  match pendLookup m.next_index m.pending with
  | none => m
  | some b =>
    drainFuel fuel
      { m with file := m.file ++ b, next_index := m.next_index + 1,
               pending := pendErase m.next_index m.pending }

/-- Modelled from the spec: `write(i, b)` — stream straight to the file and
drain when `i` is the next in-order index, otherwise buffer under key `i`. -/
def Merger.write (m : Merger) (i : Nat) (b : List Nat) : Merger :=
if i = m.next_index then
  drainFuel m.pending.length
    { m with file := m.file ++ b, next_index := m.next_index + 1 }
else { m with pending := (i, b) :: m.pending }

/-- Modelled from the spec: `flush()` — durability only, no state change. -/
def Merger.flush (m : Merger) : Merger := m

/-- A sequence of `write` calls, in arrival order. -/
def runWrites (m : Merger) : List (Nat × List Nat) → Merger
| [] => m
| (i, b) :: rest => runWrites (m.write i b) rest

/-- The Merger invariant tying a state to the set `S` of indices written so
far (over the segment bodies `bs`): everything below `next_index` has been
written and streamed to the file in order, and `pending` holds exactly the
written indices at or above `next_index`. -/
structure MergerInv (bs : List (List Nat)) (S : Nat → Bool) (m : Merger) :
    Prop where
  bound : ∀ j, S j = true → j < bs.length
  next_mem : ∀ j, j < m.next_index → S j = true
  next_not : S m.next_index = false
  look : ∀ j, pendLookup j m.pending
    = if S j = true ∧ m.next_index ≤ j then some (bs.getD j []) else none
  file : m.file = (bs.take m.next_index).flatten
  keys : (m.pending.map Prod.fst).Nodup

/-- `pendLookup` misses exactly the absent keys. -/
theorem pendLookup_none_iff (i : Nat) :
    ∀ l : List (Nat × List Nat),
      pendLookup i l = none ↔ i ∉ l.map Prod.fst := by
intro l
induction l with
| nil => simp [pendLookup]
| cons p rest ih =>
  obtain ⟨j, b⟩ := p
  by_cases hj : j = i
  · subst hj
    simp [pendLookup]
  · simp only [pendLookup, if_neg hj, List.map_cons, List.mem_cons]
    rw [ih]
    constructor
    · rintro h (rfl | h')
      · exact hj rfl
      · exact h h'
    · intro h h'
      exact h (Or.inr h')

/-- Erasing a key (with duplicate-free keys) empties its lookup and leaves
the others untouched. -/
theorem pendLookup_erase (i : Nat) :
    ∀ l : List (Nat × List Nat), (l.map Prod.fst).Nodup →
      ∀ j, pendLookup j (pendErase i l)
        = if j = i then none else pendLookup j l := by
intro l
induction l with
| nil => intro _ j; simp [pendErase, pendLookup]
| cons p rest ih =>
  obtain ⟨k, b⟩ := p
  intro hnd j
  have hnd' : (rest.map Prod.fst).Nodup := by
    simp only [List.map_cons, List.nodup_cons] at hnd
    exact hnd.2
  have hknot : k ∉ rest.map Prod.fst := by
    simp only [List.map_cons, List.nodup_cons] at hnd
    exact hnd.1
  by_cases hk : k = i
  · subst hk
    rw [pendErase, if_pos rfl]
    by_cases hj : j = k
    · subst hj
      rw [if_pos rfl, (pendLookup_none_iff j rest).mpr hknot]
    · rw [if_neg hj, pendLookup, if_neg (fun h => hj h.symm)]
  · rw [pendErase, if_neg hk]
    by_cases hj : j = i
    · subst hj
      rw [if_pos rfl, pendLookup, if_neg (fun h => hk h), ih hnd' _, if_pos rfl]
    · rw [if_neg hj, pendLookup, pendLookup]
      by_cases hkj : k = j
      · rw [if_pos hkj, if_pos hkj]
      · rw [if_neg hkj, if_neg hkj, ih hnd' _, if_neg hj]

/-- Erasure only removes entries: the key list stays duplicate-free. -/
theorem pendErase_keys_nodup (i : Nat) :
    ∀ l : List (Nat × List Nat), (l.map Prod.fst).Nodup →
      ((pendErase i l).map Prod.fst).Nodup := by
intro l
induction l with
| nil => intro h; simpa [pendErase] using h
| cons p rest ih =>
  obtain ⟨k, b⟩ := p
  intro hnd
  simp only [List.map_cons, List.nodup_cons] at hnd
  by_cases hk : k = i
  · rw [pendErase, if_pos hk]
    exact hnd.2
  · rw [pendErase, if_neg hk]
    simp only [List.map_cons, List.nodup_cons]
    refine ⟨fun hmem => ?_, ih hnd.2⟩
    have : k ∈ rest.map Prod.fst := by
      clear ih hnd
      induction rest with
      | nil => simpa [pendErase] using hmem
      | cons q rest' ih' =>
        obtain ⟨k', b'⟩ := q
        by_cases hk' : k' = i
        · rw [pendErase, if_pos hk'] at hmem
          exact List.mem_cons_of_mem _ hmem
        · rw [pendErase, if_neg hk'] at hmem
          simp only [List.map_cons, List.mem_cons] at hmem ⊢
          rcases hmem with h | h
          · exact Or.inl h
          · exact Or.inr (ih' h)
    exact hnd.1 this

/-- Erasing a present key shrinks the map by one entry. -/
theorem pendErase_length (i : Nat) :
    ∀ (l : List (Nat × List Nat)) (b : List Nat), pendLookup i l = some b →
      (pendErase i l).length + 1 = l.length := by
intro l
induction l with
| nil => intro b h; cases h
| cons p rest ih =>
  obtain ⟨k, c⟩ := p
  intro b h
  by_cases hk : k = i
  · rw [pendErase, if_pos hk]
    rfl
  · rw [pendLookup, if_neg hk] at h
    rw [pendErase, if_neg hk, List.length_cons, List.length_cons, ih b h]

/-- One more taken element flattens to one more appended body. -/
theorem flatten_take_succ :
    ∀ (bs : List (List Nat)) (n : Nat), n < bs.length →
      (bs.take (n + 1)).flatten = (bs.take n).flatten ++ bs.getD n [] := by
intro bs
induction bs with
| nil => intro n h; cases h
| cons b rest ih =>
  intro n h
  cases n with
  | zero => simp
  | succ n =>
    simp only [List.take_succ_cons, List.flatten_cons, List.getD_cons_succ]
    rw [ih n (by simpa using h), List.append_assoc]

end VSD

namespace VSD

/-- Draining with enough fuel restores the full invariant (in particular the
next index ends outside the written set). -/
theorem drainFuel_spec (bs : List (List Nat)) (S : Nat → Bool) :
    ∀ (fuel : Nat) (m : Merger),
      (∀ j, S j = true → j < bs.length) →
      (∀ j, j < m.next_index → S j = true) →
      (∀ j, pendLookup j m.pending
        = if S j = true ∧ m.next_index ≤ j then some (bs.getD j []) else none) →
      m.file = (bs.take m.next_index).flatten →
      (m.pending.map Prod.fst).Nodup →
      m.pending.length ≤ fuel →
      MergerInv bs S (drainFuel fuel m) := by
intro fuel
induction fuel with
| zero =>
  intro m hb hmem hlook hfile hkeys hfuel
  have hpend : m.pending = [] := List.length_eq_zero.mp (Nat.le_zero.mp hfuel)
  have hnot : S m.next_index = false := by
    have h := hlook m.next_index
    rw [hpend] at h
    by_cases hs : S m.next_index = true
    · rw [if_pos ⟨hs, Nat.le_refl _⟩] at h
      cases h
    · exact Bool.not_eq_true _ ▸ hs
  exact ⟨hb, hmem, hnot, fun j => hlook j, hfile, hkeys⟩
| succ fuel ih =>
  intro m hb hmem hlook hfile hkeys hfuel
  rw [drainFuel]
  cases hnext : pendLookup m.next_index m.pending with
  | none =>
    have hnot : S m.next_index = false := by
      have h := hlook m.next_index
      rw [hnext] at h
      by_cases hs : S m.next_index = true
      · rw [if_pos ⟨hs, Nat.le_refl _⟩] at h
        cases h
      · exact Bool.not_eq_true _ ▸ hs
    exact ⟨hb, hmem, hnot, fun j => hlook j, hfile, hkeys⟩
  | some b =>
    have hSnext : S m.next_index = true ∧ b = bs.getD m.next_index [] := by
      have h := hlook m.next_index
      rw [hnext] at h
      by_cases hs : S m.next_index = true
      · rw [if_pos ⟨hs, Nat.le_refl _⟩] at h
        exact ⟨hs, Option.some.inj h⟩
      · rw [if_neg (fun hc => hs hc.1)] at h
        cases h
    refine ih _ hb ?_ ?_ ?_ ?_ ?_
    · intro j hj
      simp only at hj
      rcases Nat.lt_succ_iff_lt_or_eq.mp hj with h | h
      · exact hmem j h
      · exact h ▸ hSnext.1
    · intro j
      simp only
      rw [pendLookup_erase _ _ hkeys j]
      by_cases hj : j = m.next_index
      · subst hj
        rw [if_pos rfl, if_neg (fun hc => by omega)]
      · rw [if_neg hj, hlook j]
        by_cases hc : S j = true ∧ m.next_index ≤ j
        · rw [if_pos hc, if_pos ⟨hc.1, by omega⟩]
        · rw [if_neg hc, if_neg (fun hc' => hc ⟨hc'.1, by omega⟩)]
    · simp only
      rw [hfile, hSnext.2,
        flatten_take_succ bs m.next_index (hb _ hSnext.1)]
    · exact pendErase_keys_nodup _ _ hkeys
    · simp only
      have := pendErase_length m.next_index m.pending b hnext
      omega

end VSD

namespace VSD

/-- One `write` of a fresh in-bounds index extends the written set and keeps
the invariant. -/
theorem merger_write_inv (bs : List (List Nat)) (S : Nat → Bool) (m : Merger)
    (i : Nat) (hinv : MergerInv bs S m) (hfresh : S i = false)
    (hlt : i < bs.length) :
    MergerInv bs (fun j => (j == i) || S j) (m.write i (bs.getD i [])) := by
obtain ⟨hb, hmem, hnot, hlook, hfile, hkeys⟩ := hinv
have hb' : ∀ j, ((j == i) || S j) = true → j < bs.length := by
  intro j hj
  simp only [Bool.or_eq_true, beq_iff_eq] at hj
  rcases hj with rfl | h
  · exact hlt
  · exact hb j h
have hge : m.next_index ≤ i := by
  by_contra hcon
  rw [hmem i (by omega)] at hfresh
  cases hfresh
rw [Merger.write]
by_cases hi : i = m.next_index
· rw [if_pos hi]
  refine drainFuel_spec bs _ _ _ hb' ?_ ?_ ?_ hkeys (Nat.le_refl _)
  · intro j hj
    simp only at hj
    simp only [Bool.or_eq_true, beq_iff_eq]
    rcases Nat.lt_succ_iff_lt_or_eq.mp hj with h | h
    · exact Or.inr (hmem j h)
    · exact Or.inl (by omega)
  · intro j
    show pendLookup j m.pending
      = if ((j == i) || S j) = true ∧ m.next_index + 1 ≤ j
        then some (bs.getD j []) else none
    rw [hlook j]
    by_cases hj : j = i
    · subst hj
      rw [if_neg fun hc => by rw [hfresh] at hc; cases hc.1]
      rw [if_neg fun hc => absurd hc.2 (by omega)]
    · have hbeq : (j == i) = false := by simp [hj]
      have hjne : j ≠ m.next_index := fun hcon => hj (by omega)
      by_cases hc : S j = true ∧ m.next_index ≤ j
      · rw [if_pos hc,
          if_pos ⟨by rw [hbeq, Bool.false_or]; exact hc.1, by omega⟩]
      · have hcond : ¬ (((j == i) || S j) = true ∧ m.next_index + 1 ≤ j) := by
          rintro ⟨h1, h2⟩
          rw [hbeq, Bool.false_or] at h1
          exact hc ⟨h1, by omega⟩
        rw [if_neg hc, if_neg hcond]
  · show m.file ++ bs.getD i [] = (bs.take (m.next_index + 1)).flatten
    have hltn : m.next_index < bs.length := hi ▸ hlt
    rw [hfile, flatten_take_succ bs m.next_index hltn, hi]
· rw [if_neg hi]
  have hbeqn : (m.next_index == i) = false := by
    simp [show m.next_index ≠ i from fun h => hi h.symm]
  refine ⟨hb', ?_, ?_, ?_, hfile, ?_⟩
  · intro j hj
    simp only [Bool.or_eq_true]
    exact Or.inr (hmem j hj)
  · show ((m.next_index == i) || S m.next_index) = false
    rw [hbeqn, Bool.false_or, hnot]
  · intro j
    show pendLookup j ((i, bs.getD i []) :: m.pending)
      = if ((j == i) || S j) = true ∧ m.next_index ≤ j
        then some (bs.getD j []) else none
    rw [pendLookup]
    by_cases hj : i = j
    · subst hj
      rw [if_pos rfl, if_pos ⟨by simp, hge⟩]
    · have hbeq : (j == i) = false := by
        simp [show j ≠ i from fun h => hj h.symm]
      rw [if_neg hj, hlook j]
      by_cases hc : S j = true ∧ m.next_index ≤ j
      · rw [if_pos hc, if_pos ⟨by rw [hbeq, Bool.false_or]; exact hc.1, hc.2⟩]
      · have hcond : ¬ (((j == i) || S j) = true ∧ m.next_index ≤ j) := by
          rintro ⟨h1, h2⟩
          rw [hbeq, Bool.false_or] at h1
          exact hc ⟨h1, h2⟩
        rw [if_neg hc, if_neg hcond]
  · show (((i, bs.getD i []) :: m.pending).map Prod.fst).Nodup
    simp only [List.map_cons, List.nodup_cons]
    refine ⟨?_, hkeys⟩
    refine (pendLookup_none_iff i m.pending).mp ?_
    rw [hlook i, if_neg fun hc => by rw [hfresh] at hc; cases hc.1]

/-- A sequence of fresh distinct writes preserves the invariant, extending
the written set by the written indices. -/
theorem runWrites_inv (bs : List (List Nat)) :
    ∀ (ws : List (Nat × List Nat)) (S : Nat → Bool) (m : Merger),
      MergerInv bs S m →
      (∀ p ∈ ws, S p.1 = false ∧ p.1 < bs.length ∧ p.2 = bs.getD p.1 []) →
      ((ws.map Prod.fst).Nodup) →
      MergerInv bs (fun j => decide (j ∈ ws.map Prod.fst) || S j)
        (runWrites m ws) := by
intro ws
induction ws with
| nil =>
  intro S m hinv _ _
  have heq : (fun j =>
      decide (j ∈ ([] : List (Nat × List Nat)).map Prod.fst) || S j) = S := by
    funext j
    simp
  rw [heq, runWrites]
  exact hinv
| cons p rest ih =>
  obtain ⟨i, b⟩ := p
  intro S m hinv hws hnd
  obtain ⟨hfresh, hlt, hval⟩ := hws (i, b) (by simp)
  have hwrite := merger_write_inv bs S m i hinv hfresh hlt
  rw [← hval] at hwrite
  have hi_not : i ∉ rest.map Prod.fst := by
    simp only [List.map_cons, List.nodup_cons] at hnd
    exact hnd.1
  have hnd' : (rest.map Prod.fst).Nodup := by
    simp only [List.map_cons, List.nodup_cons] at hnd
    exact hnd.2
  have hrest_cond : ∀ q ∈ rest,
      ((q.1 == i) || S q.1) = false ∧ q.1 < bs.length
      ∧ q.2 = bs.getD q.1 [] := by
    intro q hq
    obtain ⟨h1, h2, h3⟩ := hws q (List.mem_cons_of_mem _ hq)
    have hne : q.1 ≠ i := fun hcon =>
      hi_not (hcon ▸ List.mem_map_of_mem Prod.fst hq)
    exact ⟨by simp [hne, h1], h2, h3⟩
  have hrest := ih (fun j => (j == i) || S j) (m.write i b) hwrite
    hrest_cond hnd'
  have heq : (fun j => decide (j ∈ rest.map Prod.fst) || ((j == i) || S j))
      = fun j => decide (j ∈ ((i, b) :: rest).map Prod.fst) || S j := by
    funext j
    by_cases hj : j = i
    · subst hj
      simp
    · have hbeq : (j == i) = false := by simp [hj]
      simp [hj, hbeq]
  rw [runWrites, ← heq]
  exact hrest

/-- **C1.**  For every list of segment bodies and every permutation of the
index set, performing the `write(i, b_i)` calls in that permutation order on
a fresh Merger leaves the output file equal to the in-order concatenation of
the bodies (and the next-index cursor at the segment count): out-of-order
completion does not affect the file contents. -/
theorem merger_ordering (bs : List (List Nat)) (perm : List Nat)
    (hperm : perm.Perm (List.range bs.length)) :
    (runWrites (Merger.new bs.length)
        (perm.map fun i => (i, bs.getD i []))).file = bs.flatten
    ∧ (runWrites (Merger.new bs.length)
        (perm.map fun i => (i, bs.getD i []))).next_index = bs.length := by
have hinv0 : MergerInv bs (fun _ => false) (Merger.new bs.length) := by
  constructor
  · intro j h
    cases h
  · intro j h
    exact absurd h (Nat.not_lt_zero j)
  · rfl
  · intro j
    show pendLookup j [] = _
    rw [pendLookup, if_neg fun hc => by cases hc.1]
  · simp [Merger.new]
  · simp [Merger.new]
have hkeys : (perm.map fun i => (i, bs.getD i [])).map Prod.fst = perm := by
  rw [List.map_map]
  exact List.map_id _
have hnd : perm.Nodup := hperm.nodup_iff.mpr (List.nodup_range _)
have hcond : ∀ p ∈ (perm.map fun i => (i, bs.getD i [])),
    (false : Bool) = false ∧ p.1 < bs.length ∧ p.2 = bs.getD p.1 [] := by
  intro p hp
  obtain ⟨i, hi, rfl⟩ := List.mem_map.mp hp
  refine ⟨rfl, ?_, rfl⟩
  have := hperm.mem_iff.mp hi
  rw [List.mem_range] at this
  exact this
have hrun := runWrites_inv bs (perm.map fun i => (i, bs.getD i []))
  (fun _ => false) (Merger.new bs.length) hinv0 hcond
  (by rw [hkeys]; exact hnd)
have hS : ∀ j, (decide (j ∈ (perm.map fun i => (i, bs.getD i [])).map
    Prod.fst) || false) = true ↔ j < bs.length := by
  intro j
  rw [hkeys, Bool.or_false, decide_eq_true_iff, hperm.mem_iff,
    List.mem_range]
obtain ⟨hb, hmem, hnot, hlook, hfile, hkeysd⟩ := hrun
have hn : (runWrites (Merger.new bs.length)
    (perm.map fun i => (i, bs.getD i []))).next_index = bs.length := by
  have hub : ¬ ((runWrites (Merger.new bs.length)
      (perm.map fun i => (i, bs.getD i []))).next_index < bs.length) := by
    intro hcon
    rw [(hS _).mpr hcon] at hnot
    cases hnot
  by_contra hcon
  have hgt : bs.length < (runWrites (Merger.new bs.length)
      (perm.map fun i => (i, bs.getD i []))).next_index := by omega
  have hbad := hmem bs.length hgt
  rw [hS] at hbad
  omega
refine ⟨?_, hn⟩
rw [hfile, hn, List.take_length]

/-- Witness for C1: bodies `[1,2]`, `[3]`, `[4,5]` written in the order
`2, 0, 1` still produce the file `[1,2,3,4,5]`. -/
theorem merger_ordering_witness :
    (runWrites (Merger.new 3)
        ([2, 0, 1].map fun i => (i, [[1,2],[3],[4,5]].getD i []))).file
      = [1, 2, 3, 4, 5]
    ∧ (runWrites (Merger.new 3)
        ([2, 0, 1].map fun i => (i, [[1,2],[3],[4,5]].getD i []))).next_index
      = 3 := by
have h := merger_ordering [[1,2],[3],[4,5]] [2,0,1] (by decide)
exact ⟨h.1.trans (by decide), h.2⟩

end VSD

namespace VSD

/-! ## C6: stable sorting machinery

Rust's `Vec::sort_by` is a stable sort with a comparator; it is embedded as
`List.mergeSort` with the corresponding boolean `le` (`le x y` ⟺ the
comparator does not order `y` strictly before `x`).  Successive stable sorts
by later-priority keys compose into one stable lexicographic sort; the
composition theorem is proved below via the tagged (`enum`) characterization
of `mergeSort`. -/

/-- The lexicographic refinement of `le1` by `le2`: ties of `le1` are broken
by `le2`. -/
def lexComb {β : Type} (le1 le2 : β → β → Bool) (a b : β) : Bool :=
if le1 a b && le1 b a then le2 a b else le1 a b

/-- Unfolding of `lexComb` as a proposition. -/
theorem lexComb_eq_true_iff {β : Type} (le1 le2 : β → β → Bool) (a b : β) :
    lexComb le1 le2 a b = true
      ↔ (le1 a b = true ∧ (le1 b a = true → le2 a b = true)) := by
cases h1 : le1 a b <;> cases h2 : le1 b a <;>
  simp [lexComb, h1, h2]

/-- `lexComb` of transitive-total relations is transitive. -/
theorem lexComb_trans {β : Type} (le1 le2 : β → β → Bool)
    (t1 : ∀ a b c, le1 a b → le1 b c → le1 a c)
    (t2 : ∀ a b c, le2 a b → le2 b c → le2 a c) :
    ∀ a b c, lexComb le1 le2 a b → lexComb le1 le2 b c →
      lexComb le1 le2 a c := by
intro a b c hab hbc
rw [lexComb_eq_true_iff] at hab hbc ⊢
obtain ⟨l1ab, h1⟩ := hab
obtain ⟨l1bc, h2⟩ := hbc
refine ⟨t1 a b c l1ab l1bc, fun l1ca => ?_⟩
have l1cb : le1 c b = true := t1 c a b l1ca l1ab
have l1ba : le1 b a = true := t1 b c a l1bc l1ca
exact t2 a b c (h1 l1ba) (h2 l1cb)

/-- `lexComb` of total relations is total. -/
theorem lexComb_total {β : Type} (le1 le2 : β → β → Bool)
    (tot1 : ∀ a b, le1 a b || le1 b a) (tot2 : ∀ a b, le2 a b || le2 b a) :
    ∀ a b, lexComb le1 le2 a b || lexComb le1 le2 b a := by
intro a b
rw [Bool.or_eq_true, lexComb_eq_true_iff, lexComb_eq_true_iff]
by_cases hab : le1 a b = true
· by_cases hba : le1 b a = true
  · have h2 := tot2 a b
    rw [Bool.or_eq_true] at h2
    rcases h2 with h | h
    · exact Or.inl ⟨hab, fun _ => h⟩
    · exact Or.inr ⟨hba, fun _ => h⟩
  · exact Or.inl ⟨hab, fun h => absurd h hba⟩
· have hba : le1 b a = true := by
    have h1 := tot1 a b
    rw [Bool.or_eq_true] at h1
    rcases h1 with h | h
    · exact absurd h hab
    · exact h
  exact Or.inr ⟨hba, fun h => absurd h hab⟩

/-- Two distinct members of a list form a two-element sublist in one order
or the other. -/
theorem mem_pair_sublist {β : Type} :
    ∀ (l : List β) (x y : β), x ∈ l → y ∈ l → x ≠ y →
      List.Sublist [x, y] l ∨ List.Sublist [y, x] l := by
intro l
induction l with
| nil => intro x y hx _ _; cases hx
| cons c t ih =>
  intro x y hx hy hne
  rcases List.mem_cons.mp hx with rfl | hx'
  · have hy' : y ∈ t := by
      rcases List.mem_cons.mp hy with rfl | h
      · exact absurd rfl hne
      · exact h
    exact Or.inl (List.Sublist.cons₂ x (List.singleton_sublist.mpr hy'))
  · rcases List.mem_cons.mp hy with rfl | hy'
    · exact Or.inr (List.Sublist.cons₂ y (List.singleton_sublist.mpr hx'))
    · exact (ih x y hx' hy' hne).imp (List.Sublist.cons c) (List.Sublist.cons c)

/-- In a duplicate-free list, a pair cannot be a sublist in both orders
unless its elements coincide. -/
theorem sublist_pair_antisym {β : Type} :
    ∀ (l : List β), l.Nodup → ∀ x y : β, List.Sublist [x, y] l →
      List.Sublist [y, x] l → x = y := by
intro l
induction l with
| nil => intro _ x y h _; cases h
| cons c t ih =>
  intro hnd x y h1 h2
  have hc : c ∉ t := (List.nodup_cons.mp hnd).1
  have ht : t.Nodup := (List.nodup_cons.mp hnd).2
  cases h1 with
  | cons _ h1' =>
    cases h2 with
    | cons _ h2' => exact ih ht x y h1' h2'
    | cons₂ _ h2' =>
      exact absurd
        (h1'.subset (List.mem_cons_of_mem x (List.mem_cons_self c []))) hc
  | cons₂ _ h1' =>
    cases h2 with
    | cons _ h2' =>
      exact absurd
        (h2'.subset (List.mem_cons_of_mem y (List.mem_cons_self c []))) hc
    | cons₂ _ h2' => rfl

end VSD

namespace VSD

/-- `Perm.eq_of_sorted` specialized to boolean relations, with the relation
explicit. -/
theorem perm_eq_of_sorted_bool {β : Type} (lb : β → β → Bool)
    {l₁ l₂ : List β}
    (w : ∀ a b, a ∈ l₁ → b ∈ l₂ → lb a b → lb b a → a = b)
    (h₁ : l₁.Pairwise fun a b => lb a b)
    (h₂ : l₂.Pairwise fun a b => lb a b) (p : l₁.Perm l₂) : l₁ = l₂ :=
List.Perm.eq_of_sorted w h₁ h₂ p

/-- Stability composition core: a stable `mergeSort` by `lp` of a list that
is already sorted by a member-antisymmetric total order `le` (and has no
duplicates) equals the single sort by `lp` refined by `le` on ties. -/
theorem ordered_stable {β : Type} (τ : List β) (le lp : β → β → Bool)
    (le_trans : ∀ a b c, le a b → le b c → le a c)
    (le_total : ∀ a b, le a b || le b a)
    (lp_trans : ∀ a b c, lp a b → lp b c → lp a c)
    (lp_total : ∀ a b, lp a b || lp b a)
    (hnd : τ.Nodup) (hsort : τ.Pairwise fun a b => le a b)
    (hanti : ∀ x, x ∈ τ → ∀ y, y ∈ τ → le x y → le y x → x = y) :
    τ.mergeSort lp = τ.mergeSort (lexComb lp le) := by
have lex_trans := lexComb_trans lp le lp_trans le_trans
have lex_total := lexComb_total lp le lp_total le_total
have hperm1 : (τ.mergeSort lp).Perm τ := List.mergeSort_perm τ lp
have hperm2 : (τ.mergeSort (lexComb lp le)).Perm τ :=
  List.mergeSort_perm τ (lexComb lp le)
have hnd1 : (τ.mergeSort lp).Nodup := hperm1.nodup_iff.mpr hnd
refine perm_eq_of_sorted_bool (lexComb lp le) ?_ ?_ ?_
  (hperm1.trans hperm2.symm)
· intro a b ha hb hab hba
  rw [lexComb_eq_true_iff] at hab hba
  have ha' : a ∈ τ := hperm1.subset ha
  have hb' : b ∈ τ := hperm2.subset hb
  exact hanti a ha' b hb' (hab.2 hba.1) (hba.2 hab.1)
· rw [List.pairwise_iff_getElem]
  intro i j hi hj hij
  have hsorted := List.sorted_mergeSort lp_trans lp_total τ
  have hlp : lp ((τ.mergeSort lp)[i]) ((τ.mergeSort lp)[j]) :=
    List.pairwise_iff_getElem.mp hsorted i j hi hj hij
  rw [lexComb_eq_true_iff]
  refine ⟨hlp, fun hq => ?_⟩
  by_contra hno
  have hno' : le ((τ.mergeSort lp)[i]) ((τ.mergeSort lp)[j]) = false :=
    Bool.not_eq_true _ ▸ hno
  have hne : (τ.mergeSort lp)[i] ≠ (τ.mergeSort lp)[j] := by
    intro hcon
    rw [hnd1.getElem_inj_iff] at hcon
    omega
  have hmi : (τ.mergeSort lp)[i] ∈ τ :=
    hperm1.subset (List.getElem_mem hi)
  have hmj : (τ.mergeSort lp)[j] ∈ τ :=
    hperm1.subset (List.getElem_mem hj)
  rcases mem_pair_sublist τ _ _ hmi hmj hne with hsub | hsub
  · have hlekind := List.pairwise_pair.mp (List.Pairwise.sublist hsub hsort)
    rw [hno'] at hlekind
    cases hlekind
  · have hpair : List.Pairwise (fun a b => lp a b = true)
        [(τ.mergeSort lp)[j], (τ.mergeSort lp)[i]] :=
      List.pairwise_pair.mpr hq
    have hsub2 := List.sublist_mergeSort lp_trans lp_total hpair hsub
    have hsub1 : List.Sublist [(τ.mergeSort lp)[i], (τ.mergeSort lp)[j]]
        (τ.mergeSort lp) := by
      have h := @List.map_getElem_sublist _ (τ.mergeSort lp)
        [⟨i, hi⟩, ⟨j, hj⟩] (by simp [hij])
      simpa using h
    exact hne (sublist_pair_antisym _ hnd1 _ _ hsub1 hsub2)
· exact List.sorted_mergeSort lex_trans lex_total τ

end VSD

namespace VSD

/-- Members of `l.enum` carry their own index. -/
theorem enum_member_elem {α : Type} (l : List α) :
    ∀ x, x ∈ l.enum → ∃ h : x.1 < l.length, x.2 = l.get ⟨x.1, h⟩ := by
intro x hx
obtain ⟨i, hi, hget⟩ := List.mem_iff_getElem.mp hx
have hi' : i < l.length := by simpa using hi
rw [List.getElem_enum] at hget
subst hget
exact ⟨hi', rfl⟩

/-- `enumLE` is antisymmetric on the members of `l.enum` (tags are unique). -/
theorem enumLE_anti {α : Type} (l : List α) (le2 : α → α → Bool) :
    ∀ x, x ∈ l.enum → ∀ y, y ∈ l.enum →
      List.enumLE le2 x y → List.enumLE le2 y x → x = y := by
intro x hx y hy hxy hyx
rw [List.enumLE] at hxy hyx
by_cases h1 : le2 x.2 y.2 = true
· by_cases h2 : le2 y.2 x.2 = true
  · rw [if_pos h1, if_pos h2] at hxy
    rw [if_pos h2, if_pos h1] at hyx
    have hle1 : x.1 ≤ y.1 := by simpa using hxy
    have hle2 : y.1 ≤ x.1 := by simpa using hyx
    have h12 : x.1 = y.1 := Nat.le_antisymm hle1 hle2
    obtain ⟨hxl, hx2⟩ := enum_member_elem l x hx
    obtain ⟨hyl, hy2⟩ := enum_member_elem l y hy
    obtain ⟨i, a⟩ := x
    obtain ⟨j, b⟩ := y
    simp only at h12 hx2 hy2
    subst h12
    rw [Prod.mk.injEq]
    exact ⟨rfl, by rw [hx2, hy2]⟩
  · rw [if_neg h2] at hyx
    cases hyx
· rw [if_neg h1] at hxy
  cases hxy

/-- **Composition of stable sorts.**  Stably sorting by `le2` and then
stably sorting by `le1` equals one stable sort by the lexicographic
combination (`le1` first, ties broken by `le2`). -/
theorem mergeSort_mergeSort {α : Type} (l : List α) (le1 le2 : α → α → Bool)
    (t1 : ∀ a b c, le1 a b → le1 b c → le1 a c)
    (tot1 : ∀ a b, le1 a b || le1 b a)
    (t2 : ∀ a b c, le2 a b → le2 b c → le2 a c)
    (tot2 : ∀ a b, le2 a b || le2 b a) :
    (l.mergeSort le2).mergeSort le1 = l.mergeSort (lexComb le1 le2) := by
have henum_nd : l.enum.Nodup := by
  have h := List.nodup_range l.length
  rw [← List.enum_map_fst l] at h
  exact h.of_map
have hτnd : (l.enum.mergeSort (List.enumLE le2)).Nodup :=
  (List.mergeSort_perm _ _).nodup_iff.mpr henum_nd
have hτsort : (l.enum.mergeSort (List.enumLE le2)).Pairwise
    (fun a b => List.enumLE le2 a b) :=
  List.sorted_mergeSort (List.enumLE_trans t2) (List.enumLE_total tot2) _
have lp_trans : ∀ a b c : Nat × α,
    le1 a.2 b.2 → le1 b.2 c.2 → le1 a.2 c.2 :=
  fun a b c hab hbc => t1 _ _ _ hab hbc
have lp_total : ∀ a b : Nat × α, le1 a.2 b.2 || le1 b.2 a.2 :=
  fun a b => tot1 a.2 b.2
have lexT_trans := lexComb_trans (fun p q : Nat × α => le1 p.2 q.2)
  (List.enumLE le2) lp_trans (List.enumLE_trans t2)
have lexT_total := lexComb_total (fun p q : Nat × α => le1 p.2 q.2)
  (List.enumLE le2) lp_total (List.enumLE_total tot2)
have step1 : l.mergeSort le2
    = (l.enum.mergeSort (List.enumLE le2)).map (·.2) :=
  List.mergeSort_enum.symm
have step2 : ((l.enum.mergeSort (List.enumLE le2)).map (·.2)).mergeSort le1
    = ((l.enum.mergeSort (List.enumLE le2)).mergeSort
        (fun p q => le1 p.2 q.2)).map (·.2) :=
  (List.map_mergeSort (r := fun p q : Nat × α => le1 p.2 q.2) (s := le1)
    (f := fun x : Nat × α => x.2) fun a _ b _ => rfl).symm
have step3 : (l.enum.mergeSort (List.enumLE le2)).mergeSort
      (fun p q => le1 p.2 q.2)
    = (l.enum.mergeSort (List.enumLE le2)).mergeSort
      (lexComb (fun p q => le1 p.2 q.2) (List.enumLE le2)) := by
  refine ordered_stable _ (List.enumLE le2) (fun p q => le1 p.2 q.2)
    (List.enumLE_trans t2) (List.enumLE_total tot2) lp_trans lp_total
    hτnd hτsort ?_
  intro x hx y hy hxy hyx
  exact enumLE_anti l le2 x (List.mem_mergeSort.mp hx) y
    (List.mem_mergeSort.mp hy) hxy hyx
have step4 : (l.enum.mergeSort (List.enumLE le2)).mergeSort
      (lexComb (fun p q => le1 p.2 q.2) (List.enumLE le2))
    = l.enum.mergeSort
      (lexComb (fun p q => le1 p.2 q.2) (List.enumLE le2)) := by
  refine perm_eq_of_sorted_bool
    (lexComb (fun p q => le1 p.2 q.2) (List.enumLE le2)) ?_ ?_ ?_ ?_
  · intro a b ha hb hab hba
    rw [lexComb_eq_true_iff] at hab hba
    have ha' : a ∈ l.enum := List.mem_mergeSort.mp
      ((List.mergeSort_perm _ _).subset ha)
    have hb' : b ∈ l.enum := List.mem_mergeSort.mp hb
    exact enumLE_anti l le2 a ha' b hb' (hab.2 hba.1) (hba.2 hab.1)
  · exact List.sorted_mergeSort lexT_trans lexT_total _
  · exact List.sorted_mergeSort lexT_trans lexT_total _
  · exact (List.mergeSort_perm _ _).trans
      ((List.mergeSort_perm _ _).trans (List.mergeSort_perm _ _).symm)
have step5 : lexComb (fun p q : Nat × α => le1 p.2 q.2) (List.enumLE le2)
    = List.enumLE (lexComb le1 le2) := by
  funext p q
  simp only [lexComb, List.enumLE]
  by_cases h1 : le1 p.2 q.2 = true <;> by_cases h2 : le1 q.2 p.2 = true <;>
    by_cases h3 : le2 p.2 q.2 = true <;> by_cases h4 : le2 q.2 p.2 = true <;>
      simp [h1, h2, h3, h4]
rw [step1, step2, step3, step4, step5, List.mergeSort_enum]

end VSD

namespace VSD

/-! ## C6: `MasterPlaylist::sort_streams` -/

/-- The video primary key: `pixels = width * height` (0 when the resolution
is absent). -/
def pixelsOf (x : MediaPlaylist) : Nat :=
match x.resolution with
| some (w, h) => w * h
| none => 0

/-- `bandwidth.unwrap_or(0)`. -/
def bwKey (x : MediaPlaylist) : Nat :=
x.bandwidth.getD 0

/-- `channels.unwrap_or(0.0)` as an `f32` bit pattern (`0.0` is the zero
pattern). -/
def chanBits (x : MediaPlaylist) : Nat :=
x.channels.getD 0

/-- Rust `f32::total_cmp` reduced to a key: reinterpret the bits as `i32`
and, when negative, XOR the non-sign bits; comparing keys as integers is
exactly `total_cmp`. -/
def f32key (b : Nat) : Int :=
if b < 2 ^ 31 then (b : Int) else ((b ^^^ 0x7fffffff : Nat) : Int) - 2 ^ 32

/-- `str::to_lowercase`, character-wise (languages are ASCII tags). -/
def lowerStr (s : String) : String :=
⟨s.data.map Char.toLower⟩

/-- Rust `str::get(0..2)`: the first two bytes when they exist, embedded at
the character level (one byte per character for ASCII tags). -/
def take2 (l : List Char) : Option (List Char) :=
if 2 ≤ l.length then some (l.take 2) else none

/-- The `language_factor` computation of `sort_streams`: 2 for an exact
(lowercased) match with the preferred language, 1 when the two-byte prefixes
agree (also when both are too short to have one), 0 otherwise or when either
side is absent.  `prefer_lang` is the already-lowercased preference. -/
def langFactor (prefer_lang : Option String) (x : MediaPlaylist) : Nat :=
match x.language.map lowerStr with
| some playlist_lang =>
  match prefer_lang with
  | some prefer =>
    if playlist_lang = prefer then 2
    else if take2 playlist_lang.data = take2 prefer.data then 1
    else 0
  | none => 0
| none => 0

/-- `MasterPlaylist::sort_streams` from `playlist.rs`: three stable
`sort_by` passes per kind (each `sort_by` embedded as `mergeSort` with the
comparator's `le`), over the `(stream, keys…)` tuples the source builds,
video then audio then subtitles, all other kinds dropped. -/
def MasterPlaylist.sort_streams (m : MasterPlaylist)
    (prefer_audio_lang prefer_subs_lang : Option String) : MasterPlaylist :=
let pa := prefer_audio_lang.map lowerStr
let ps := prefer_subs_lang.map lowerStr
let video_streams := m.streams.filterMap fun x =>
  if x.media_type == .Video then some (x, pixelsOf x, bwKey x) else none
let video_streams := video_streams.mergeSort fun x y => decide (y.2.2 ≤ x.2.2)
let video_streams := video_streams.mergeSort fun x y => decide (y.2.1 ≤ x.2.1)
let audio_streams := m.streams.filterMap fun x =>
  if x.media_type == .Audio then
    some (x, langFactor pa x, chanBits x, bwKey x)
  else none
let audio_streams := audio_streams.mergeSort fun x y =>
  decide (y.2.2.2 ≤ x.2.2.2)
let audio_streams := audio_streams.mergeSort fun x y =>
  decide (f32key y.2.2.1 ≤ f32key x.2.2.1)
let audio_streams := audio_streams.mergeSort fun x y => decide (y.2.1 ≤ x.2.1)
let subtitles_streams := m.streams.filterMap fun x =>
  if x.media_type == .Subtitles then some (x, langFactor ps x) else none
let subtitles_streams := subtitles_streams.mergeSort fun x y =>
  decide (y.2 ≤ x.2)
{ m with streams := video_streams.map (·.1) ++ audio_streams.map (·.1)
    ++ subtitles_streams.map (·.1) }

/-- The video ordering the spec states: pixels descending, then bandwidth
descending. -/
def videoLexLe (x y : MediaPlaylist) : Bool :=
decide (pixelsOf y < pixelsOf x
  ∨ (pixelsOf y = pixelsOf x ∧ bwKey y ≤ bwKey x))

/-- The audio ordering the spec states: `language_factor` descending, then
channels descending under the `total_cmp` order, then bandwidth
descending. -/
def audioLexLe (pa : Option String) (x y : MediaPlaylist) : Bool :=
decide (langFactor pa y < langFactor pa x
  ∨ (langFactor pa y = langFactor pa x
     ∧ (f32key (chanBits y) < f32key (chanBits x)
        ∨ (f32key (chanBits y) = f32key (chanBits x) ∧ bwKey y ≤ bwKey x))))

/-- The subtitle ordering the spec states: `language_factor` descending. -/
def subsLexLe (ps : Option String) (x y : MediaPlaylist) : Bool :=
decide (langFactor ps y ≤ langFactor ps x)

/-- `filter_map` with a guarded `some` is filtering followed by mapping. -/
theorem filterMap_if {α β : Type} (p : α → Bool) (f : α → β) :
    ∀ l : List α,
      (l.filterMap fun x => if p x then some (f x) else none)
        = (l.filter p).map f := by
intro l
induction l with
| nil => rfl
| cons a t ih =>
  by_cases hp : p a
  · simp only [List.filterMap_cons, hp, if_pos, List.filter_cons_of_pos,
      List.map_cons]
    rw [ih]
  · simp only [List.filterMap_cons, hp]
    rw [List.filter_cons_of_neg (by simp [hp]), if_neg (by simp [hp]), ih]

end VSD

namespace VSD

/-- The subtitle pass of `sort_streams` projected back to streams: one
stable sort by `language_factor` descending. -/
theorem subs_part_eq (l : List MediaPlaylist) (ps : Option String) :
    (((l.filterMap fun x =>
        if x.media_type == .Subtitles then some (x, langFactor ps x)
        else none).mergeSort fun x y => decide (y.2 ≤ x.2)).map (·.1))
      = (l.filter fun x => x.media_type == .Subtitles).mergeSort
          (subsLexLe ps) := by
rw [filterMap_if (fun x => x.media_type == .Subtitles)
  (fun x => (x, langFactor ps x)) l]
rw [List.map_mergeSort (s := subsLexLe ps)
  (f := fun t : MediaPlaylist × Nat => t.1) ?_]
· rw [List.map_map]
  congr 1
  exact List.map_id _
· intro a ha b hb
  obtain ⟨x, hx, rfl⟩ := List.mem_map.mp ha
  obtain ⟨y, hy, rfl⟩ := List.mem_map.mp hb
  rfl

end VSD

namespace VSD

/-- Transitivity of a descending key comparator. -/
theorem keyLe_trans {α κ : Type} [LinearOrder κ] (k : α → κ) :
    ∀ a b c, decide (k b ≤ k a) → decide (k c ≤ k b) →
      decide (k c ≤ k a) := by
intro a b c h1 h2
simp only [decide_eq_true_iff] at h1 h2 ⊢
exact le_trans h2 h1

/-- Totality of a descending key comparator. -/
theorem keyLe_total {α κ : Type} [LinearOrder κ] (k : α → κ) :
    ∀ a b, decide (k b ≤ k a) || decide (k a ≤ k b) := by
intro a b
simp only [Bool.or_eq_true, decide_eq_true_iff]
exact le_total (k b) (k a)

/-- Boolean extensionality via the truth-value proposition. -/
theorem bool_eq_of_iff {a b : Bool} (h : a = true ↔ b = true) : a = b := by
cases a <;> cases b <;> simp_all

/-- The composed video comparator is the spec's lexicographic one. -/
theorem videoLex_eq :
    lexComb (fun x y => decide (pixelsOf y ≤ pixelsOf x))
        (fun x y => decide (bwKey y ≤ bwKey x))
      = videoLexLe := by
funext x y
apply bool_eq_of_iff
rw [lexComb_eq_true_iff]
simp only [decide_eq_true_iff, videoLexLe]
omega

/-- The composed audio comparator is the spec's lexicographic one. -/
theorem audioLex_eq (pa : Option String) :
    lexComb (fun x y => decide (langFactor pa y ≤ langFactor pa x))
        (lexComb (fun x y => decide (f32key (chanBits y) ≤ f32key (chanBits x)))
          (fun x y => decide (bwKey y ≤ bwKey x)))
      = audioLexLe pa := by
funext x y
apply bool_eq_of_iff
simp only [lexComb_eq_true_iff]
simp only [decide_eq_true_iff, audioLexLe]
omega

/-- The video passes of `sort_streams` projected back to streams: bandwidth
then pixels stable sorts compose to the lexicographic (pixels, bandwidth)
descending sort. -/
theorem video_part_eq (l : List MediaPlaylist) :
    ((((l.filterMap fun x =>
        if x.media_type == .Video then some (x, pixelsOf x, bwKey x)
        else none).mergeSort fun x y => decide (y.2.2 ≤ x.2.2)).mergeSort
          fun x y => decide (y.2.1 ≤ x.2.1)).map (·.1))
      = (l.filter fun x => x.media_type == .Video).mergeSort videoLexLe := by
rw [filterMap_if (fun x => x.media_type == .Video)
  (fun x => (x, pixelsOf x, bwKey x)) l]
rw [List.map_mergeSort (s := fun x y => decide (pixelsOf y ≤ pixelsOf x))
  (f := fun t : MediaPlaylist × Nat × Nat => t.1) ?_]
· rw [List.map_mergeSort (s := fun x y => decide (bwKey y ≤ bwKey x))
    (f := fun t : MediaPlaylist × Nat × Nat => t.1) ?_]
  · rw [List.map_map]
    rw [show (List.map ((fun t : MediaPlaylist × Nat × Nat => t.1)
        ∘ fun x => (x, pixelsOf x, bwKey x))
        (List.filter (fun x => x.media_type == MediaType.Video) l))
      = (l.filter fun x => x.media_type == .Video) from List.map_id _]
    rw [mergeSort_mergeSort _ _ _ (keyLe_trans pixelsOf) (keyLe_total pixelsOf)
      (keyLe_trans bwKey) (keyLe_total bwKey)]
    rw [videoLex_eq]
  · intro a ha b hb
    obtain ⟨x, hx, rfl⟩ := List.mem_map.mp ha
    obtain ⟨y, hy, rfl⟩ := List.mem_map.mp hb
    rfl
· intro a ha b hb
  obtain ⟨x, hx, rfl⟩ := List.mem_map.mp (List.mem_mergeSort.mp ha)
  obtain ⟨y, hy, rfl⟩ := List.mem_map.mp (List.mem_mergeSort.mp hb)
  rfl

/-- The audio passes of `sort_streams` projected back to streams: bandwidth,
channels, then language-factor stable sorts compose to the lexicographic
(language factor, channels, bandwidth) descending sort. -/
theorem audio_part_eq (l : List MediaPlaylist) (pa : Option String) :
    (((((l.filterMap fun x =>
        if x.media_type == .Audio then
          some (x, langFactor pa x, chanBits x, bwKey x)
        else none).mergeSort fun x y => decide (y.2.2.2 ≤ x.2.2.2)).mergeSort
          fun x y => decide (f32key y.2.2.1 ≤ f32key x.2.2.1)).mergeSort
          fun x y => decide (y.2.1 ≤ x.2.1)).map (·.1))
      = (l.filter fun x => x.media_type == .Audio).mergeSort
          (audioLexLe pa) := by
rw [filterMap_if (fun x => x.media_type == .Audio)
  (fun x => (x, langFactor pa x, chanBits x, bwKey x)) l]
rw [List.map_mergeSort
  (s := fun x y => decide (langFactor pa y ≤ langFactor pa x))
  (f := fun t : MediaPlaylist × Nat × Nat × Nat => t.1) ?_]
· rw [List.map_mergeSort
    (s := fun x y => decide (f32key (chanBits y) ≤ f32key (chanBits x)))
    (f := fun t : MediaPlaylist × Nat × Nat × Nat => t.1) ?_]
  · rw [List.map_mergeSort (s := fun x y => decide (bwKey y ≤ bwKey x))
      (f := fun t : MediaPlaylist × Nat × Nat × Nat => t.1) ?_]
    · rw [List.map_map]
      rw [show (List.map ((fun t : MediaPlaylist × Nat × Nat × Nat => t.1)
          ∘ fun x => (x, langFactor pa x, chanBits x, bwKey x))
          (List.filter (fun x => x.media_type == MediaType.Audio) l))
        = (l.filter fun x => x.media_type == .Audio) from List.map_id _]
      rw [mergeSort_mergeSort _ _ _
        (keyLe_trans (fun x => f32key (chanBits x)))
        (keyLe_total (fun x => f32key (chanBits x)))
        (keyLe_trans bwKey) (keyLe_total bwKey)]
      rw [mergeSort_mergeSort _ _ _
        (keyLe_trans (langFactor pa)) (keyLe_total (langFactor pa))
        (lexComb_trans _ _ (keyLe_trans (fun x => f32key (chanBits x)))
          (keyLe_trans bwKey))
        (lexComb_total _ _ (keyLe_total (fun x => f32key (chanBits x)))
          (keyLe_total bwKey))]
      rw [audioLex_eq]
    · intro a ha b hb
      obtain ⟨x, hx, rfl⟩ := List.mem_map.mp ha
      obtain ⟨y, hy, rfl⟩ := List.mem_map.mp hb
      rfl
  · intro a ha b hb
    obtain ⟨x, hx, rfl⟩ := List.mem_map.mp (List.mem_mergeSort.mp ha)
    obtain ⟨y, hy, rfl⟩ := List.mem_map.mp (List.mem_mergeSort.mp hb)
    rfl
· intro a ha b hb
  obtain ⟨x, hx, rfl⟩ := List.mem_map.mp
    (List.mem_mergeSort.mp (List.mem_mergeSort.mp ha))
  obtain ⟨y, hy, rfl⟩ := List.mem_map.mp
    (List.mem_mergeSort.mp (List.mem_mergeSort.mp hb))
  rfl

end VSD

namespace VSD

/-- The audio lexicographic order is transitive. -/
theorem audioLexLe_trans (pa : Option String) :
    ∀ a b c, audioLexLe pa a b → audioLexLe pa b c → audioLexLe pa a c := by
intro a b c h1 h2
simp only [audioLexLe, decide_eq_true_iff] at h1 h2 ⊢
omega

/-- The audio lexicographic order is total. -/
theorem audioLexLe_total (pa : Option String) :
    ∀ a b, audioLexLe pa a b || audioLexLe pa b a := by
intro a b
simp only [Bool.or_eq_true, audioLexLe, decide_eq_true_iff]
omega

/-- **C6.**  `sort_streams` keeps exactly the video, audio and subtitle
streams (other kinds dropped), in that group order, with the video group
stably sorted by (pixels, bandwidth) descending, the audio group stably
sorted by (language factor, channels under the `total_cmp` order, bandwidth)
descending, and the subtitle group stably sorted by language factor
descending; and two audio streams with equal (language factor, channels,
bandwidth) keys keep their manifest order. -/
theorem sort_streams_spec (m : MasterPlaylist) (pal psl : Option String) :
    ((m.sort_streams pal psl).streams
      = (m.streams.filter fun x => x.media_type == .Video).mergeSort
          videoLexLe
        ++ (m.streams.filter fun x => x.media_type == .Audio).mergeSort
             (audioLexLe (pal.map lowerStr))
        ++ (m.streams.filter fun x => x.media_type == .Subtitles).mergeSort
             (subsLexLe (psl.map lowerStr)))
    ∧ (∀ x y, List.Sublist [x, y] m.streams →
        x.media_type = .Audio → y.media_type = .Audio →
        langFactor (pal.map lowerStr) x = langFactor (pal.map lowerStr) y →
        f32key (chanBits x) = f32key (chanBits y) → bwKey x = bwKey y →
        List.Sublist [x, y] (m.sort_streams pal psl).streams) := by
have hfirst : (m.sort_streams pal psl).streams
    = (m.streams.filter fun x => x.media_type == .Video).mergeSort videoLexLe
      ++ (m.streams.filter fun x => x.media_type == .Audio).mergeSort
           (audioLexLe (pal.map lowerStr))
      ++ (m.streams.filter fun x => x.media_type == .Subtitles).mergeSort
           (subsLexLe (psl.map lowerStr)) := by
  rw [show (m.sort_streams pal psl).streams
      = ((((m.streams.filterMap fun x =>
            if x.media_type == .Video then some (x, pixelsOf x, bwKey x)
            else none).mergeSort fun x y =>
              decide (y.2.2 ≤ x.2.2)).mergeSort fun x y =>
              decide (y.2.1 ≤ x.2.1)).map (·.1))
        ++ (((((m.streams.filterMap fun x =>
            if x.media_type == .Audio then
              some (x, langFactor (pal.map lowerStr) x, chanBits x, bwKey x)
            else none).mergeSort fun x y =>
              decide (y.2.2.2 ≤ x.2.2.2)).mergeSort fun x y =>
              decide (f32key y.2.2.1 ≤ f32key x.2.2.1)).mergeSort fun x y =>
              decide (y.2.1 ≤ x.2.1)).map (·.1))
        ++ (((m.streams.filterMap fun x =>
            if x.media_type == .Subtitles then
              some (x, langFactor (psl.map lowerStr) x)
            else none).mergeSort fun x y => decide (y.2 ≤ x.2)).map (·.1))
    from rfl]
  rw [video_part_eq, audio_part_eq, subs_part_eq]
refine ⟨hfirst, ?_⟩
intro x y hsub hx hy h1 h2 h3
have hfilter : List.Sublist [x, y]
    (m.streams.filter fun s => s.media_type == .Audio) := by
  have h := hsub.filter (fun s => s.media_type == .Audio)
  simpa [hx, hy] using h
have hpair : List.Pairwise
    (fun a b => audioLexLe (pal.map lowerStr) a b = true) [x, y] := by
  rw [List.pairwise_pair]
  simp only [audioLexLe, decide_eq_true_iff]
  omega
have hsorted := List.sublist_mergeSort (audioLexLe_trans _) (audioLexLe_total _)
  hpair hfilter
rw [hfirst]
refine hsorted.trans
  (List.Sublist.trans ?_ (List.sublist_append_left _ _))
exact List.sublist_append_right _ _

/-- Two equal-key audio streams used by the C6 witness (channels bits
`0x40C00000` = 6.0f32, bandwidth 64000, same language). -/
def c6A : MediaPlaylist :=
{ media_type := .Audio, channels := some 0x40C00000,
  bandwidth := some 64000, language := some "en", uri := "a1" }

/-- Second C6 witness stream, identical keys, later manifest position. -/
def c6B : MediaPlaylist :=
{ media_type := .Audio, channels := some 0x40C00000,
  bandwidth := some 64000, language := some "en", uri := "a2" }

/-- Witness for C6: the two equal-key audio streams keep their manifest
order through `sort_streams`. -/
theorem sort_streams_spec_witness :
    List.Sublist [c6A, c6B]
      (({ streams := [c6A, c6B] : MasterPlaylist }.sort_streams
        none none).streams) := by
exact (sort_streams_spec { streams := [c6A, c6B] } none none).2 c6A c6B
  (List.Sublist.refl _) rfl rfl rfl rfl rfl

end VSD
